import Mathlib

/-!
Verification of the whiteboard-analyse pipeline
(`src/whiteboard-to-notes-using-ai.py`).

The Python program is embedded shallowly:

* strings are modelled as `List Char` (`Chars`);
* file contents read by the encoder are modelled as `List Nat` byte lists
  (each byte `< 256`);
* the filesystem is an explicit record of directories and `(path, contents)`
  pairs, threaded through the functions that touch the disk;
* the network round trip to the hosted model is a boundary: the reply text the
  model sends back is a parameter of the functions that consume it;
* the wall clock is a boundary: `datetime.now()` becomes an explicit
  `LocalTime` argument;
* raised Python exceptions (in particular `json.JSONDecodeError`) become
  `Option`/explicit failure results.

JSON is modelled by the inductive `JValue`.  The model covers JSON documents
without floating-point numbers (numbers are integers); floating point is
outside the scope of the embedding.  Python `dict`s are modelled as ordered
association lists, which is exact for every value `json.dumps` can produce.
-/

namespace Whiteboard

abbrev Chars := List Char

/-- Python `str` ASCII whitespace, as stripped by `str.strip()`:
space, tab, newline, carriage return, vertical tab, form feed. -/
def pyIsSpace (c : Char) : Bool :=
  c = ' ' || c = '\t' || c = '\n' || c = '\r' || c = '\x0b' || c = '\x0c'

/-- Python `str.strip()` with no argument: drop whitespace from both ends. -/
def pyStrip (s : Chars) : Chars :=
  ((s.dropWhile pyIsSpace).reverse.dropWhile pyIsSpace).reverse

/-- Python `s.replace(old, "")` for a nonempty pattern `old = p :: ps`:
scan left to right; whenever the pattern starts at the current position,
delete it and continue scanning right after the deleted occurrence
(occurrences are non-overlapping), otherwise keep the character. -/
def removeAll (p : Char) (ps : Chars) : Chars → Chars
  | [] => []
  | c :: rest =>
    if (p :: ps).isPrefixOf (c :: rest) then removeAll p ps (rest.drop ps.length)
    else c :: removeAll p ps rest
termination_by s => s.length
decreasing_by
  · simp only [List.length_drop, List.length_cons]
    omega
  · simp

/-- Line 129 of the source:
`bereinigt = rohtext.replace("```json", "").replace("```", "").strip()`. -/
def bereinige (rohtext : Chars) : Chars :=
  pyStrip (removeAll '`' "``".data (removeAll '`' "``json".data rohtext))

/-- Index of the leftmost occurrence of `pat` in `s`, if any. -/
def findPat (pat : Chars) : Chars → Option Nat
  | [] => if pat = [] then some 0 else none
  | c :: rest =>
    if pat.isPrefixOf (c :: rest) then some 0
    else (findPat pat rest).map (· + 1)

/-- Whether `pat` occurs somewhere in `s` (as a contiguous substring). -/
def occursIn (pat s : Chars) : Bool := (findPat pat s).isSome

/-- Deletion of every occurrence of a (nonempty) pattern, phrased the way the
amended specification sentence reads: find the leftmost occurrence of the
pattern anywhere in the text, delete it, and repeat on the remaining text. -/
def deleteOccs (p : Char) (ps : Chars) (s : Chars) : Chars :=
  match h : findPat (p :: ps) s with
  | none => s
  | some i => s.take i ++ deleteOccs p ps (s.drop (i + ps.length + 1))
termination_by s.length
decreasing_by
  rcases s with _ | ⟨c, t⟩
  · simp [findPat] at h
  · simp only [List.length_drop, List.length_cons]
    omega

/-- Edge-only fence stripping, as the specification sentence for the cleaning
step reads: strip surrounding whitespace, remove one leading triple-backtick
fence (with or without a `json` language tag) and one trailing triple-backtick
fence, and strip the surrounding whitespace that is then exposed.  Interior
characters are left unchanged. -/
def spec_clean_edges (s : Chars) : Chars :=
  let t := pyStrip s
  let t2 := if ("```json".data).isPrefixOf t then t.drop 7
            else if ("```".data).isPrefixOf t then t.drop 3
            else t
  let t3 := if ("```".data).isSuffixOf t2 then t2.take (t2.length - 3) else t2
  pyStrip t3

/-- JSON values, as produced by Python's `json` module on this program's
data: `null`, booleans, integers, strings, arrays, and objects (ordered
association lists).  Floating-point numbers are outside the model. -/
inductive JValue where
  | jnull : JValue
  | jbool : Bool → JValue
  | jint : Int → JValue
  | jstr : Chars → JValue
  | jarr : List JValue → JValue
  | jobj : List (Chars × JValue) → JValue

def digitChar (n : Nat) : Char := Char.ofNat (48 + n)

/-- Decimal digits of `n`, most significant first (Python `str` on a `Nat`). -/
def natDigits (n : Nat) : Chars :=
  if n < 10 then [digitChar n]
  else natDigits (n / 10) ++ [digitChar (n % 10)]
termination_by n
decreasing_by
  exact Nat.div_lt_self (by omega) (by omega)

/-- Python `str` on an `int`: optional minus sign followed by the digits. -/
def intChars (n : Int) : Chars :=
  if n < 0 then '-' :: natDigits n.natAbs else natDigits n.natAbs

def hexDigitChar (n : Nat) : Char :=
  if n < 10 then Char.ofNat (48 + n) else Char.ofNat (87 + n)

/-- How `json.dumps(..., ensure_ascii=False)` renders one character inside a
string literal: `"` and `\` get a backslash escape, the five control
characters with short escapes use them, any other control character becomes
`\u00xx`, and everything else is emitted verbatim. -/
def escapeChar (c : Char) : Chars :=
  if c = '"' then ['\\', '"']
  else if c = '\\' then ['\\', '\\']
  else if c = '\n' then ['\\', 'n']
  else if c = '\t' then ['\\', 't']
  else if c = '\r' then ['\\', 'r']
  else if c = '\x08' then ['\\', 'b']
  else if c = '\x0c' then ['\\', 'f']
  else if c.toNat < 32 then
    ['\\', 'u', '0', '0', hexDigitChar (c.toNat / 16), hexDigitChar (c.toNat % 16)]
  else [c]

def escChars : Chars → Chars
  | [] => []
  | c :: rest => escapeChar c ++ escChars rest

/-- A JSON string literal: quote, escaped characters, quote. -/
def quoteChars (s : Chars) : Chars := '"' :: (escChars s ++ ['"'])

/-- The newline-plus-indentation separator `json.dumps(..., indent=4)` puts
before an element printed at nesting level `lvl`. -/
def nlIndent (lvl : Nat) : Chars := '\n' :: List.replicate (4 * lvl) ' '

mutual
/-- Printer for `json.dumps(v, indent=4, ensure_ascii=False)` at nesting level `lvl`
(the call in `json_speichern`, line 46 of the source, uses `lvl = 0`). -/
def dumpVal (lvl : Nat) : JValue → Chars
  | .jnull => "null".data
  | .jbool b => if b then "true".data else "false".data
  | .jint n => intChars n
  | .jstr s => quoteChars s
  | .jarr [] => "[]".data
  | .jarr (x :: xs) =>
    '[' :: (nlIndent (lvl + 1) ++ dumpVal (lvl + 1) x ++ dumpArrTail (lvl + 1) xs
      ++ nlIndent lvl ++ [']'])
  | .jobj [] => "\x7b\x7d".data
  | .jobj ((k, v) :: kvs) =>
    '\x7b' :: (nlIndent (lvl + 1) ++ quoteChars k ++ ':' :: ' ' :: dumpVal (lvl + 1) v
      ++ dumpObjTail (lvl + 1) kvs ++ nlIndent lvl ++ ['\x7d'])

/-- The remaining elements of a non-empty array: `,` then newline-indent then
the element, repeated. -/
def dumpArrTail (lvl : Nat) : List JValue → Chars
  | [] => []
  | x :: xs => ',' :: (nlIndent lvl ++ dumpVal lvl x ++ dumpArrTail lvl xs)

/-- The remaining members of a non-empty object: `,`, newline-indent, the
quoted key, `: `, the value, repeated. -/
def dumpObjTail (lvl : Nat) : List (Chars × JValue) → Chars
  | [] => []
  | (k, v) :: kvs =>
    ',' :: (nlIndent lvl ++ quoteChars k ++ ':' :: ' ' :: dumpVal lvl v ++ dumpObjTail lvl kvs)
end

/-- Full `json.dumps(v, indent=4, ensure_ascii=False)` output, the exact text
`json.dump` writes to the export file. -/
def json_dumps (v : JValue) : Chars := dumpVal 0 v

/-- The whitespace `json.loads` skips between tokens: space, tab, newline,
carriage return. -/
def jsonIsSpace (c : Char) : Bool := c = ' ' || c = '\t' || c = '\n' || c = '\r'

def skipWs (s : Chars) : Chars := s.dropWhile jsonIsSpace

def isDigitCh (c : Char) : Bool := 48 ≤ c.toNat && c.toNat ≤ 57

def digitVal (c : Char) : Nat := c.toNat - 48

def digitsVal (ds : Chars) : Nat := ds.foldl (fun a c => a * 10 + digitVal c) 0

/-- The integer part of the JSON number grammar: `0` matches only itself
(JSON forbids leading zeros), any other leading digit starts a maximal digit
run.  A following `.`/`e` (a float) is outside the model and will make the
enclosing parse fail rather than produce a wrong value. -/
def parseNat : Chars → Option (Nat × Chars)
  | [] => none
  | c :: rest =>
    if c = '0' then some (0, rest)
    else if isDigitCh c then
      some (digitsVal (c :: rest.takeWhile isDigitCh), rest.dropWhile isDigitCh)
    else none

def parseNum (s : Chars) : Option (JValue × Chars) :=
  match s with
  | [] => none
  | c :: rest =>
    if c = '-' then (parseNat rest).map (fun p => (JValue.jint (-(p.1 : Int)), p.2))
    else (parseNat s).map (fun p => (JValue.jint (p.1 : Int), p.2))

def hexVal (c : Char) : Option Nat :=
  if 48 ≤ c.toNat ∧ c.toNat ≤ 57 then some (c.toNat - 48)
  else if 97 ≤ c.toNat ∧ c.toNat ≤ 102 then some (c.toNat - 87)
  else if 65 ≤ c.toNat ∧ c.toNat ≤ 70 then some (c.toNat - 55)
  else none

def escDecode (e : Char) : Option Char :=
  if e = '"' then some '"'
  else if e = '\\' then some '\\'
  else if e = '/' then some '/'
  else if e = 'n' then some '\n'
  else if e = 't' then some '\t'
  else if e = 'r' then some '\r'
  else if e = 'b' then some '\x08'
  else if e = 'f' then some '\x0c'
  else none

/-- The body of a JSON string literal (after the opening quote): plain
characters up to the closing quote, backslash escapes, `\uXXXX` escapes, and
a hard error on raw control characters, as in `json.loads` strict mode.
Returns the decoded characters and the text after the closing quote. -/
def parseStr : Chars → Option (Chars × Chars)
  | [] => none
  | c :: rest =>
    if c = '"' then some ([], rest)
    else if c = '\\' then
      match rest with
      | [] => none
      | e :: rest2 =>
        if e = 'u' then
          match rest2 with
          | h1 :: h2 :: h3 :: h4 :: rest3 =>
            match hexVal h1, hexVal h2, hexVal h3, hexVal h4 with
            | some a, some b, some c2, some d =>
              (parseStr rest3).map
                (fun p => (Char.ofNat (((a * 16 + b) * 16 + c2) * 16 + d) :: p.1, p.2))
            | _, _, _, _ => none
          | _ => none
        else
          match escDecode e with
          | some ch => (parseStr rest2).map (fun p => (ch :: p.1, p.2))
          | none => none
    else if c.toNat < 32 then none
    else (parseStr rest).map (fun p => (c :: p.1, p.2))

mutual
/-- One JSON value (the recursive core of `json.loads`): skip whitespace and
dispatch on the first character.  `fuel` bounds the recursion depth; every
recursive call strictly consumes input, so `json_loads` below can supply a
fuel that never runs out. -/
def parseVal : Nat → Chars → Option (JValue × Chars)
  | 0, _ => none
  | Nat.succ fuel, s =>
    match skipWs s with
    | [] => none
    | c :: rest =>
      if c = '"' then (parseStr rest).map (fun p => (JValue.jstr p.1, p.2))
      else if c = '[' then
        match skipWs rest with
        | [] => none
        | d :: rest2 =>
          if d = ']' then some (JValue.jarr [], rest2)
          else
            match parseVal fuel (d :: rest2) with
            | some (v, rest3) =>
              (parseArrTail fuel rest3).map (fun p => (JValue.jarr (v :: p.1), p.2))
            | none => none
      else if c = '\x7b' then
        match skipWs rest with
        | [] => none
        | d :: rest2 =>
          if d = '\x7d' then some (JValue.jobj [], rest2)
          else
            match parseMember fuel (d :: rest2) with
            | some (kv, rest3) =>
              (parseObjTail fuel rest3).map (fun p => (JValue.jobj (kv :: p.1), p.2))
            | none => none
      else if c = 'n' then
        match rest with
        | 'u' :: 'l' :: 'l' :: rest2 => some (JValue.jnull, rest2)
        | _ => none
      else if c = 't' then
        match rest with
        | 'r' :: 'u' :: 'e' :: rest2 => some (JValue.jbool true, rest2)
        | _ => none
      else if c = 'f' then
        match rest with
        | 'a' :: 'l' :: 's' :: 'e' :: rest2 => some (JValue.jbool false, rest2)
        | _ => none
      else parseNum (c :: rest)

/-- One `"key": value` object member. -/
def parseMember : Nat → Chars → Option ((Chars × JValue) × Chars)
  | 0, _ => none
  | Nat.succ fuel, s =>
    match skipWs s with
    | [] => none
    | c :: rest =>
      if c = '"' then
        match parseStr rest with
        | some (k, rest2) =>
          match skipWs rest2 with
          | ':' :: rest3 => (parseVal fuel rest3).map (fun p => ((k, p.1), p.2))
          | _ => none
        | none => none
      else none

/-- After one array element: `]` closes the array, `,` starts another
element. -/
def parseArrTail : Nat → Chars → Option (List JValue × Chars)
  | 0, _ => none
  | Nat.succ fuel, s =>
    match skipWs s with
    | [] => none
    | c :: rest =>
      if c = ']' then some ([], rest)
      else if c = ',' then
        match parseVal fuel rest with
        | some (v, rest2) => (parseArrTail fuel rest2).map (fun p => (v :: p.1, p.2))
        | none => none
      else none

/-- After one object member: `}` closes the object, `,` starts another
member. -/
def parseObjTail : Nat → Chars → Option (List (Chars × JValue) × Chars)
  | 0, _ => none
  | Nat.succ fuel, s =>
    match skipWs s with
    | [] => none
    | c :: rest =>
      if c = '\x7d' then some ([], rest)
      else if c = ',' then
        match parseMember fuel rest with
        | some (kv, rest2) => (parseObjTail fuel rest2).map (fun p => (kv :: p.1, p.2))
        | none => none
      else none
end

/-- Model of `json.loads`: parse one value and require that only whitespace follows,
otherwise fail (Python raises `json.JSONDecodeError`; the model returns
`none`). -/
def json_loads (s : Chars) : Option JValue :=
  match parseVal (s.length + 1) s with
  | some (v, rest) => if skipWs rest = [] then some v else none
  | none => none

/-- A local wall-clock instant truncated to seconds, the data
`datetime.now().strftime("%Y%m%d_%H%M%S")` reads.  Two calls of `zeitstempel`
more than one second apart see different `LocalTime` values; two calls within
the same second may see the same value. -/
structure LocalTime where
  year : Nat
  month : Nat
  day : Nat
  hour : Nat
  minute : Nat
  second : Nat
deriving DecidableEq

/-- The ranges `datetime.now()` can actually produce (year shown with four
digits, calendar month/day, 24-hour clock). -/
def validTime (t : LocalTime) : Prop :=
  1000 ≤ t.year ∧ t.year ≤ 9999 ∧ 1 ≤ t.month ∧ t.month ≤ 12 ∧
    1 ≤ t.day ∧ t.day ≤ 31 ∧ t.hour ≤ 23 ∧ t.minute ≤ 59 ∧ t.second ≤ 59

/-- The `strftime` zero-padding of a number to width `w`. -/
def padNum (w : Nat) (n : Nat) : Chars :=
  List.replicate (w - (natDigits n).length) '0' ++ natDigits n

/-- Lines 29-31 of the source:
`zeitstempel` formats the current local time as `YYYYMMDD_HHMMSS`
(`datetime.now().strftime("%Y%m%d_%H%M%S")`), with the clock reading passed
explicitly. -/
def zeitstempel (t : LocalTime) : Chars :=
  padNum 4 t.year ++ padNum 2 t.month ++ padNum 2 t.day ++
    '_' :: (padNum 2 t.hour ++ padNum 2 t.minute ++ padNum 2 t.second)

/-- The filesystem visible to the program: a set of directories and a map
from file paths to file contents, both as explicit lists. -/
structure FS where
  dirs : List Chars
  files : List (Chars × Chars)

/-- Association-list update: overwrite the entry for `p` or append a new
one (the effect of `open(pfad, "w")` plus a full write). -/
def setEntry (p v : Chars) : List (Chars × Chars) → List (Chars × Chars)
  | [] => [(p, v)]
  | (q, w) :: rest => if q = p then (p, v) :: rest else (q, w) :: setEntry p v rest

def lookupEntry (p : Chars) : List (Chars × Chars) → Option Chars
  | [] => none
  | (q, v) :: rest => if q = p then some v else lookupEntry p rest

/-- Contents of the file at `p`, if it exists. -/
def fsRead (fs : FS) (p : Chars) : Option Chars := lookupEntry p fs.files

/-- Model of `Path.mkdir(exist_ok=True)`: create the directory if absent, succeed
silently if it already exists. -/
def mkdirExistOk (d : Chars) (fs : FS) : FS :=
  if d ∈ fs.dirs then fs else { fs with dirs := d :: fs.dirs }

/-- Write (create or overwrite) the file at `p`. -/
def fsWrite (p v : Chars) (fs : FS) : FS :=
  { fs with files := setEntry p v fs.files }

/-- Lines 34-48 of the source, `json_speichern`: ensure `whiteboard_exports`
exists, compose `lecture_notes_<zeitstempel>.json` inside it, dump `daten` as
indented non-ASCII-preserving JSON into that file, and return the path.  The
wall-clock reading consumed by the inner `zeitstempel()` call is the explicit
`now` argument. -/
def json_speichern (now : LocalTime) (daten : JValue) (fs : FS) : Chars × FS :=
  let fs1 := mkdirExistOk "whiteboard_exports".data fs
  let dateiname := "lecture_notes_".data ++ zeitstempel now ++ ".json".data
  let pfad := "whiteboard_exports".data ++ '/' :: dateiname
  (pfad, fsWrite pfad (json_dumps daten) fs1)

/-- Standard base64 alphabet (RFC 4648), as used by `base64.b64encode`. -/
def b64Char (n : Nat) : Char :=
  if n < 26 then Char.ofNat (65 + n)
  else if n < 52 then Char.ofNat (97 + (n - 26))
  else if n < 62 then Char.ofNat (48 + (n - 52))
  else if n = 62 then '+' else '/'

/-- Value of a base64 alphabet character. -/
def b64Val (c : Char) : Option Nat :=
  if 65 ≤ c.toNat ∧ c.toNat ≤ 90 then some (c.toNat - 65)
  else if 97 ≤ c.toNat ∧ c.toNat ≤ 122 then some (c.toNat - 71)
  else if 48 ≤ c.toNat ∧ c.toNat ≤ 57 then some (c.toNat + 4)
  else if c = '+' then some 62
  else if c = '/' then some 63
  else none

/-- Model of `base64.b64encode`: encode three bytes at a time into four alphabet
characters, padding a trailing group of one or two bytes with `=`. -/
def b64encode : List Nat → Chars
  | [] => []
  | [a] => [b64Char (a / 4), b64Char (a % 4 * 16), '=', '=']
  | [a, b] => [b64Char (a / 4), b64Char (a % 4 * 16 + b / 16), b64Char (b % 16 * 4), '=']
  | a :: b :: c :: rest =>
    b64Char (a / 4) :: b64Char (a % 4 * 16 + b / 16) :: b64Char (b % 16 * 4 + c / 64) ::
      b64Char (c % 64) :: b64encode rest

/-- Standard base64 decoding (the inverse direction of `base64.b64decode`):
four characters at a time, with `=` padding allowed only in the final
group. -/
def b64decode : Chars → Option (List Nat)
  | [] => some []
  | c1 :: c2 :: c3 :: c4 :: rest =>
    if c3 = '=' ∧ c4 = '=' ∧ rest = [] then
      match b64Val c1, b64Val c2 with
      | some v1, some v2 => some [v1 * 4 + v2 / 16]
      | _, _ => none
    else if c4 = '=' ∧ rest = [] then
      match b64Val c1, b64Val c2, b64Val c3 with
      | some v1, some v2, some v3 => some [v1 * 4 + v2 / 16, v2 % 16 * 16 + v3 / 4]
      | _, _, _ => none
    else
      match b64Val c1, b64Val c2, b64Val c3, b64Val c4 with
      | some v1, some v2, some v3, some v4 =>
        (b64decode rest).map
          (fun bs => (v1 * 4 + v2 / 16) :: (v2 % 16 * 16 + v3 / 4) :: (v3 % 4 * 64 + v4) :: bs)
      | _, _, _, _ => none
  | _ => none

/-- Lines 20-26 of the source, `bild_als_base64`: read the file at the given
path in binary mode and base64-encode its bytes (the `.decode("utf-8")` that
turns the base64 bytes into text is the identity in this model).  The file
read is modelled by passing the file's bytes directly. -/
def bild_als_base64 (contents : List Nat) : Chars := b64encode contents

/-- The image source block of the request: `type`, `media_type`, `data`. -/
structure ImageSource where
  type : Chars
  media_type : Chars
  data : Chars

inductive ContentBlock where
  | text : Chars → ContentBlock
  | image : ImageSource → ContentBlock

structure ChatMessage where
  role : Chars
  content : List ContentBlock

/-- The argument record of `self.client.messages.create(...)`
(lines 99-126 of the source). -/
structure Request where
  model : Chars
  max_tokens : Nat
  system : Chars
  messages : List ChatMessage

/-- The `system_prompt` string of `analysiere_whiteboard` (the exact wording
is inert for the verified properties; the German text is reproduced without
the surrounding triple-quote indentation). -/
def system_prompt : Chars :=
  ("\n        Du bist ein didaktischer KI-Assistent für Hochschullehre.\n\n" ++
   "        Deine Aufgabe:\n" ++
   "        - Erkenne Inhalte auf einem Vorlesungs-Whiteboard\n" ++
   "        - Identifiziere Themen, Text, mathematische Formeln und Diagramme\n" ++
   "        - Strukturiere alles logisch und lernfreundlich\n" ++
   "        - Antworte ausschließlich mit validem JSON\n        ").data

/-- The `ziel_schema` dictionary of `analysiere_whiteboard`. -/
def ziel_schema : JValue :=
  .jobj [
    ("topic".data, .jstr "string".data),
    ("sections".data, .jarr [.jobj [
      ("title".data, .jstr "string".data),
      ("content_type".data, .jstr "text | formula | diagram".data),
      ("content".data, .jstr "string".data),
      ("key_points".data, .jarr [.jstr "string".data])]]),
    ("flashcards".data, .jarr [.jobj [
      ("question".data, .jstr "string".data),
      ("answer".data, .jstr "string".data)]]),
    ("summary".data, .jstr "string".data)]

/-- The request `analysiere_whiteboard` constructs for a given base64 image
payload: the fixed model name, `max_tokens=3000`, the system prompt, and one
user message holding an instruction text block (with the pretty-printed
schema inlined via `json.dumps(ziel_schema, indent=4)`) and an image block
whose media type is hardcoded to `image/jpeg`. -/
def build_request (bild_base64 : Chars) : Request where
  model := "claude-3-5-sonnet-20241022".data
  max_tokens := 3000
  system := system_prompt
  messages := [{
    role := "user".data,
    content := [
      .text (("Analysiere dieses Whiteboard-Foto aus einer Vorlesung " ++
        "und strukturiere den Inhalt gemäß folgendem JSON-Schema:\n\n").data ++
        json_dumps ziel_schema),
      .image { type := "base64".data, media_type := "image/jpeg".data,
               data := bild_base64 }] }]

/-- All image media types declared anywhere in a request. -/
def imageMediaTypes (r : Request) : List Chars :=
  r.messages.foldr
    (fun m acc =>
      m.content.foldr
        (fun b acc2 =>
          match b with
          | .image src => src.media_type :: acc2
          | .text _ => acc2) acc) []

/-- Lines 64-130 of the source, `analysiere_whiteboard`, with the network
boundary made explicit: the function builds the request for the base64
payload, and processes the model's text reply (`message.content[0].text`,
passed here as `reply`) by fence-cleaning it and parsing it as JSON.
The pair holds the issued request and the parse outcome (`none` models the
raised `json.JSONDecodeError`). -/
def analysiere_whiteboard (bild_base64 reply : Chars) : Request × Option JValue :=
  (build_request bild_base64, json_loads (bereinige reply))

/-- The three side-effecting collaborators `verarbeite_whiteboard` drives, in
the order it drives them; used to record the invocation trace. -/
inductive Step where
  | encoder
  | analysis
  | persister
deriving DecidableEq

/-- Lines 137-146 of the source, `verarbeite_whiteboard`: encode the uploaded
file, analyse it, persist the result, and return the parsed result together
with the status string.  `bild_contents` are the bytes of the uploaded file,
`reply` is the model's text reply, `now` is the wall-clock reading of the
persist step.  The function returns the request outcome (`none` when the
parse failure propagates out of the callback), the final filesystem, and the
trace of invoked collaborators. -/
def verarbeite_whiteboard (now : LocalTime) (bild_contents : List Nat) (reply : Chars)
    (fs : FS) : Option (JValue × Chars) × FS × List Step :=
  let b64 := bild_als_base64 bild_contents
  match (analysiere_whiteboard b64 reply).2 with
  | none => (none, fs, [Step.encoder, Step.analysis])
  | some ergebnis =>
    let res := json_speichern now ergebnis fs
    (some (ergebnis, "Gespeichert unter: ".data ++ res.1), res.2,
      [Step.encoder, Step.analysis, Step.persister])

/-- The first character of the text that follows a printed number must not be
a digit (otherwise the greedy number scan would swallow it). -/
def headNotDigit : Chars → Bool
  | [] => true
  | c :: _ => !isDigitCh c

mutual
/-- A sufficient `parseVal` fuel for re-parsing the printed form of `v`. -/
def jfuel : JValue → Nat
  | .jnull => 1
  | .jbool _ => 1
  | .jint _ => 1
  | .jstr _ => 1
  | .jarr [] => 1
  | .jarr (x :: xs) => 1 + jfuel x + jfuelA xs
  | .jobj [] => 1
  | .jobj ((_, v) :: kvs) => 2 + jfuel v + jfuelO kvs

/-- Fuel for `parseArrTail` on the printed tail of an array. -/
def jfuelA : List JValue → Nat
  | [] => 1
  | x :: xs => 1 + jfuel x + jfuelA xs

/-- Fuel for `parseObjTail` on the printed tail of an object. -/
def jfuelO : List (Chars × JValue) → Nat
  | [] => 1
  | (_, v) :: kvs => 2 + jfuel v + jfuelO kvs
end

/-- Re-parsing the printed form of `v`, followed by any non-digit-leading
suffix, succeeds and consumes exactly the printed form. -/
def ParseDump (v : JValue) : Prop :=
  ∀ fuel lvl rest, jfuel v ≤ fuel → headNotDigit rest = true →
    parseVal fuel (dumpVal lvl v ++ rest) = some (v, rest)

theorem removeAll_nil (p : Char) (ps : Chars) : removeAll p ps [] = [] := by
  unfold removeAll
  rfl

theorem removeAll_cons_pos (p : Char) (ps : Chars) (c : Char) (rest : Chars)
    (h : (p :: ps).isPrefixOf (c :: rest)) :
    removeAll p ps (c :: rest) = removeAll p ps (rest.drop ps.length) := by
  conv_lhs => unfold removeAll
  simp [h]

theorem removeAll_cons_neg (p : Char) (ps : Chars) (c : Char) (rest : Chars)
    (h : ¬ (p :: ps).isPrefixOf (c :: rest)) :
    removeAll p ps (c :: rest) = c :: removeAll p ps rest := by
  conv_lhs => unfold removeAll
  simp [h]

theorem isPrefixOf_append (p t : Chars) : p.isPrefixOf (p ++ t) = true := by
  induction p with
  | nil => simp [List.isPrefixOf]
  | cons a as ih => simp [List.isPrefixOf, ih]

theorem isPrefixOf_exists : ∀ (p s : Chars), p.isPrefixOf s = true → ∃ t, p ++ t = s := by
  intro p
  induction p with
  | nil => intro s _; exact ⟨s, rfl⟩
  | cons a as ih =>
    intro s h
    rcases s with _ | ⟨b, bs⟩
    · simp [List.isPrefixOf] at h
    · simp only [List.isPrefixOf, Bool.and_eq_true, beq_iff_eq] at h
      obtain ⟨t, ht⟩ := ih bs h.2
      exact ⟨t, by rw [List.cons_append, ht, h.1]⟩

theorem deleteOccs_of_findPat_none (p : Char) (ps s : Chars)
    (h : findPat (p :: ps) s = none) : deleteOccs p ps s = s := by
  conv_lhs => unfold deleteOccs
  split
  · rfl
  · rename_i i hi; rw [h] at hi; cases hi

theorem deleteOccs_of_findPat_some (p : Char) (ps s : Chars) (i : Nat)
    (h : findPat (p :: ps) s = some i) :
    deleteOccs p ps s = s.take i ++ deleteOccs p ps (s.drop (i + ps.length + 1)) := by
  conv_lhs => unfold deleteOccs
  split
  · rename_i hn; rw [h] at hn; cases hn
  · rename_i j hj; rw [h] at hj; cases hj; rfl

theorem deleteOccs_of_head_match (p : Char) (ps s rest : Chars)
    (h : (p :: ps) ++ rest = s) :
    deleteOccs p ps s = deleteOccs p ps rest := by
  have hfind : findPat (p :: ps) s = some 0 := by
    rcases s with _ | ⟨c, t⟩
    · cases h
    · simp only [findPat]
      rw [if_pos (show (p :: ps).isPrefixOf (c :: t) = true from by
        rw [← h]; exact isPrefixOf_append (p :: ps) rest)]
  rw [deleteOccs_of_findPat_some p ps s 0 hfind]
  have hdrop : s.drop (ps.length + 1) = rest := by
    rw [← h]
    have : ((p :: ps) ++ rest).drop (p :: ps).length = rest := by
      simp
    simpa using this
  simp [hdrop]

theorem deleteOccs_cons_of_not_match (p : Char) (ps : Chars) (c : Char) (rest : Chars)
    (h : ¬ (p :: ps).isPrefixOf (c :: rest)) :
    deleteOccs p ps (c :: rest) = c :: deleteOccs p ps rest := by
  rcases hf : findPat (p :: ps) rest with _ | i
  · have hcons : findPat (p :: ps) (c :: rest) = none := by
      simp [findPat, h, hf]
    rw [deleteOccs_of_findPat_none _ _ _ hcons, deleteOccs_of_findPat_none _ _ _ hf]
  · have hcons : findPat (p :: ps) (c :: rest) = some (i + 1) := by
      simp [findPat, h, hf]
    rw [deleteOccs_of_findPat_some _ _ _ _ hcons, deleteOccs_of_findPat_some _ _ _ _ hf]
    have harith : i + 1 + ps.length + 1 = (i + ps.length + 1) + 1 := by omega
    rw [harith]
    simp only [List.take_succ_cons, List.drop_succ_cons, List.cons_append]

/-- The scanning deletion performed by `str.replace(old, "")` agrees with the
specification-level description "delete the leftmost occurrence and repeat". -/
theorem removeAll_eq_deleteOccs (p : Char) (ps : Chars) (s : Chars) :
    removeAll p ps s = deleteOccs p ps s := by
  have main : ∀ n s, List.length s ≤ n → removeAll p ps s = deleteOccs p ps s := by
    intro n
    induction n with
    | zero =>
      intro s hs
      have : s = [] := List.eq_nil_of_length_eq_zero (by omega)
      subst this
      rw [removeAll_nil, deleteOccs_of_findPat_none]
      simp [findPat]
    | succ n ih =>
      intro s hs
      rcases s with _ | ⟨c, rest⟩
      · rw [removeAll_nil, deleteOccs_of_findPat_none]
        simp [findPat]
      · by_cases hpre : (p :: ps).isPrefixOf (c :: rest)
        · obtain ⟨t, ht⟩ := isPrefixOf_exists _ _ hpre
          have hdrop : rest.drop ps.length = t := by
            have hc : rest = ps ++ t := by
              have h2 := ht
              simp only [List.cons_append, List.cons.injEq] at h2
              exact h2.2.symm
            rw [hc]
            simp
          rw [removeAll_cons_pos p ps c rest hpre,
            deleteOccs_of_head_match p ps (c :: rest) t ht, hdrop]
          apply ih
          have hlen := congrArg List.length ht
          simp only [List.length_append, List.length_cons] at hlen hs
          omega
        · rw [removeAll_cons_neg p ps c rest hpre,
            deleteOccs_cons_of_not_match p ps c rest hpre]
          have : rest.length ≤ n := by
            simp only [List.length_cons] at hs
            omega
          rw [ih rest this]
  exact main s.length s le_rfl

/-! Round-trip lemmas: `json_loads` recovers exactly what `json_dumps`
printed.  These are the workhorse facts for the Result Persister claims. -/
theorem digitChar_toNat : ∀ m, m < 10 → (digitChar m).toNat = 48 + m := by decide

theorem isDigitCh_digitChar : ∀ m, m < 10 → isDigitCh (digitChar m) = true := by decide

theorem digitChar_ne_zero : ∀ m, 1 ≤ m → m < 10 → digitChar m ≠ '0' := by decide

theorem digitVal_digitChar : ∀ m, m < 10 → digitVal (digitChar m) = m := by decide

theorem natDigits_lt (n : Nat) (h : n < 10) : natDigits n = [digitChar n] := by
  conv_lhs => unfold natDigits
  simp [h]

theorem natDigits_ge (n : Nat) (h : ¬ n < 10) :
    natDigits n = natDigits (n / 10) ++ [digitChar (n % 10)] := by
  conv_lhs => unfold natDigits
  simp [h]

theorem natDigits_ne_nil (n : Nat) : natDigits n ≠ [] := by
  by_cases h : n < 10
  · rw [natDigits_lt n h]; simp
  · rw [natDigits_ge n h]; simp

theorem natDigits_all_digit : ∀ n c, c ∈ natDigits n → isDigitCh c = true := by
  intro n
  induction n using Nat.strong_induction_on with
  | _ n ih =>
    intro c hc
    by_cases h : n < 10
    · rw [natDigits_lt n h] at hc
      simp at hc
      subst hc
      exact isDigitCh_digitChar n h
    · rw [natDigits_ge n h] at hc
      simp at hc
      rcases hc with hc | hc
      · exact ih (n / 10) (Nat.div_lt_self (by omega) (by omega)) c hc
      · subst hc
        exact isDigitCh_digitChar _ (Nat.mod_lt _ (by omega))

theorem digitsVal_append_singleton (ds : Chars) (d : Char) :
    digitsVal (ds ++ [d]) = digitsVal ds * 10 + digitVal d := by
  simp [digitsVal, List.foldl_append]

theorem digitsVal_natDigits : ∀ n, digitsVal (natDigits n) = n := by
  intro n
  induction n using Nat.strong_induction_on with
  | _ n ih =>
    by_cases h : n < 10
    · rw [natDigits_lt n h]
      simp [digitsVal, digitVal_digitChar n h]
    · rw [natDigits_ge n h, digitsVal_append_singleton,
        ih (n / 10) (Nat.div_lt_self (by omega) (by omega)),
        digitVal_digitChar _ (Nat.mod_lt _ (by omega))]
      omega

theorem natDigits_head : ∀ n c t, 1 ≤ n → natDigits n = c :: t → c ≠ '0' := by
  intro n
  induction n using Nat.strong_induction_on with
  | _ n ih =>
    intro c t hn hct
    by_cases h : n < 10
    · rw [natDigits_lt n h] at hct
      cases hct
      exact digitChar_ne_zero n hn h
    · rw [natDigits_ge n h] at hct
      rcases hq : natDigits (n / 10) with _ | ⟨c', t'⟩
      · exact absurd hq (natDigits_ne_nil _)
      · rw [hq] at hct
        simp at hct
        exact hct.1 ▸ ih (n / 10) (Nat.div_lt_self (by omega) (by omega)) c' t'
          (by omega) hq

theorem takeWhile_digits_append :
    ∀ ds rest, (∀ c ∈ ds, isDigitCh c = true) → headNotDigit rest = true →
      (ds ++ rest).takeWhile isDigitCh = ds ∧ (ds ++ rest).dropWhile isDigitCh = rest := by
  intro ds
  induction ds with
  | nil =>
    intro rest _ hrest
    rcases rest with _ | ⟨c, t⟩
    · simp
    · simp only [headNotDigit, Bool.not_eq_true'] at hrest
      simp [List.takeWhile_cons, List.dropWhile_cons, hrest]
  | cons d ds ih =>
    intro rest hds hrest
    have hd : isDigitCh d = true := hds d (by simp)
    have := ih rest (fun c hc => hds c (by simp [hc])) hrest
    simp [List.takeWhile_cons, List.dropWhile_cons, hd, this.1, this.2]

theorem parseNat_natDigits (n : Nat) (rest : Chars) (hrest : headNotDigit rest = true) :
    parseNat (natDigits n ++ rest) = some (n, rest) := by
  by_cases h0 : n = 0
  · subst h0
    rw [natDigits_lt 0 (by omega)]
    simp [parseNat, digitChar]
  · rcases hq : natDigits n with _ | ⟨c, t⟩
    · exact absurd hq (natDigits_ne_nil _)
    · have hc : isDigitCh c = true := natDigits_all_digit n c (by rw [hq]; simp)
      have hcz : c ≠ '0' := natDigits_head n c t (by omega) hq
      have ht : ∀ x ∈ t, isDigitCh x = true := by
        intro x hx
        exact natDigits_all_digit n x (by rw [hq]; simp [hx])
      have hsplit := takeWhile_digits_append t rest ht hrest
      simp only [List.cons_append, parseNat]
      rw [if_neg (by simpa using hcz), if_pos hc, hsplit.1, hsplit.2]
      have : digitsVal (c :: t) = n := by rw [← hq, digitsVal_natDigits]
      rw [this]

theorem isDigitCh_ne_minus (c : Char) (h : isDigitCh c = true) : ¬ c = '-' := by
  rintro rfl
  simp [isDigitCh] at h

theorem parseNum_intChars (n : Int) (rest : Chars) (hrest : headNotDigit rest = true) :
    parseNum (intChars n ++ rest) = some (JValue.jint n, rest) := by
  have hkey : parseNat (natDigits n.natAbs ++ rest) = some (n.natAbs, rest) :=
    parseNat_natDigits n.natAbs rest hrest
  by_cases hneg : n < 0
  · rw [show intChars n = '-' :: natDigits n.natAbs from by simp [intChars, hneg]]
    simp only [List.cons_append, parseNum, if_pos rfl]
    rw [hkey]
    simp only [Option.map_some']
    have h2 : (-(n.natAbs : Int)) = n := by omega
    rw [h2]
    simp
  · rw [show intChars n = natDigits n.natAbs from by simp [intChars, hneg]]
    rcases hq : natDigits n.natAbs with _ | ⟨c, t⟩
    · exact absurd hq (natDigits_ne_nil _)
    · have hc : isDigitCh c = true := natDigits_all_digit _ c (by rw [hq]; simp)
      rw [hq] at hkey
      simp only [List.cons_append] at hkey ⊢
      simp only [parseNum]
      rw [if_neg (isDigitCh_ne_minus c hc), hkey]
      simp only [Option.map_some']
      have h2 : ((n.natAbs : Nat) : Int) = n := by omega
      rw [h2]

theorem hexVal_hexDigitChar : ∀ m, m < 16 → hexVal (hexDigitChar m) = some m := by decide

theorem char_ofNat_toNat_of_lt (c : Char) (h : c.toNat < 32) : Char.ofNat c.toNat = c := by
  have hv : Nat.isValidChar c.toNat := Or.inl (by omega)
  rw [Char.ofNat, dif_pos hv]
  rcases c with ⟨⟨⟨v, hvlt⟩⟩, hval⟩
  simp [Char.ofNatAux, Char.toNat, UInt32.toNat] at *
  rfl

theorem escChars_cons (c : Char) (cs : Chars) :
    escChars (c :: cs) = escapeChar c ++ escChars cs := by
  rw [escChars.eq_def]

/-- Unescaping inverts escaping: parsing the escaped body of a string literal
up to its closing quote recovers the original characters exactly. -/
theorem parseStr_escChars : ∀ s rest, parseStr (escChars s ++ '"' :: rest) = some (s, rest) := by
  intro s
  induction s with
  | nil =>
    intro rest
    rw [show escChars [] = [] from rfl, List.nil_append, parseStr.eq_def]
    simp
  | cons c cs ih =>
    intro rest
    rw [escChars_cons, List.append_assoc]
    by_cases h1 : c = '"'
    · subst h1
      rw [show escapeChar '"' = ['\\', '"'] from rfl]
      rw [show (['\\', '"'] : Chars) ++ (escChars cs ++ '"' :: rest)
          = '\\' :: '"' :: (escChars cs ++ '"' :: rest) from rfl]
      rw [parseStr.eq_def]
      simp [escDecode, ih rest]
    · by_cases h2 : c = '\\'
      · subst h2
        rw [show escapeChar '\\' = ['\\', '\\'] from rfl]
        rw [show (['\\', '\\'] : Chars) ++ (escChars cs ++ '"' :: rest)
            = '\\' :: '\\' :: (escChars cs ++ '"' :: rest) from rfl]
        rw [parseStr.eq_def]
        simp [escDecode, ih rest]
      · by_cases h3 : c = '\n'
        · subst h3
          rw [show escapeChar '\n' = ['\\', 'n'] from rfl]
          rw [show (['\\', 'n'] : Chars) ++ (escChars cs ++ '"' :: rest)
              = '\\' :: 'n' :: (escChars cs ++ '"' :: rest) from rfl]
          rw [parseStr.eq_def]
          simp [escDecode, ih rest]
        · by_cases h4 : c = '\t'
          · subst h4
            rw [show escapeChar '\t' = ['\\', 't'] from rfl]
            rw [show (['\\', 't'] : Chars) ++ (escChars cs ++ '"' :: rest)
                = '\\' :: 't' :: (escChars cs ++ '"' :: rest) from rfl]
            rw [parseStr.eq_def]
            simp [escDecode, ih rest]
          · by_cases h5 : c = '\r'
            · subst h5
              rw [show escapeChar '\r' = ['\\', 'r'] from rfl]
              rw [show (['\\', 'r'] : Chars) ++ (escChars cs ++ '"' :: rest)
                  = '\\' :: 'r' :: (escChars cs ++ '"' :: rest) from rfl]
              rw [parseStr.eq_def]
              simp [escDecode, ih rest]
            · by_cases h6 : c = '\x08'
              · subst h6
                rw [show escapeChar '\x08' = ['\\', 'b'] from rfl]
                rw [show (['\\', 'b'] : Chars) ++ (escChars cs ++ '"' :: rest)
                    = '\\' :: 'b' :: (escChars cs ++ '"' :: rest) from rfl]
                rw [parseStr.eq_def]
                simp [escDecode, ih rest]
              · by_cases h7 : c = '\x0c'
                · subst h7
                  rw [show escapeChar '\x0c' = ['\\', 'f'] from rfl]
                  rw [show (['\\', 'f'] : Chars) ++ (escChars cs ++ '"' :: rest)
                      = '\\' :: 'f' :: (escChars cs ++ '"' :: rest) from rfl]
                  rw [parseStr.eq_def]
                  simp [escDecode, ih rest]
                · by_cases h8 : c.toNat < 32
                  · have hhi : hexVal (hexDigitChar (c.toNat / 16)) = some (c.toNat / 16) :=
                      hexVal_hexDigitChar _ (by omega)
                    have hlo : hexVal (hexDigitChar (c.toNat % 16)) = some (c.toNat % 16) :=
                      hexVal_hexDigitChar _ (by omega)
                    have hch : Char.ofNat (c.toNat / 16 * 16 + c.toNat % 16) = c := by
                      rw [show c.toNat / 16 * 16 + c.toNat % 16 = c.toNat from by omega]
                      exact char_ofNat_toNat_of_lt c h8
                    rw [show escapeChar c =
                        ['\\', 'u', '0', '0', hexDigitChar (c.toNat / 16),
                          hexDigitChar (c.toNat % 16)] from by
                      simp [escapeChar, h1, h2, h3, h4, h5, h6, h7, h8]]
                    rw [show (['\\', 'u', '0', '0', hexDigitChar (c.toNat / 16),
                        hexDigitChar (c.toNat % 16)] : Chars) ++ (escChars cs ++ '"' :: rest)
                        = '\\' :: 'u' :: '0' :: '0' :: hexDigitChar (c.toNat / 16) ::
                          hexDigitChar (c.toNat % 16) :: (escChars cs ++ '"' :: rest) from rfl]
                    rw [parseStr.eq_def]
                    simp [show hexVal '0' = some 0 from by decide, hhi, hlo, hch, ih rest]
                  · rw [show escapeChar c = [c] from by
                      simp [escapeChar, h1, h2, h3, h4, h5, h6, h7, h8]]
                    rw [show ([c] : Chars) ++ (escChars cs ++ '"' :: rest)
                        = c :: (escChars cs ++ '"' :: rest) from rfl]
                    rw [parseStr.eq_def]
                    simp [h1, h2, h8, ih rest]

theorem skipWs_append_of_ws :
    ∀ a b, (∀ c ∈ a, jsonIsSpace c = true) → skipWs (a ++ b) = skipWs b := by
  intro a
  induction a with
  | nil => intro b _; rfl
  | cons c t ih =>
    intro b ha
    have hc : jsonIsSpace c = true := ha c (by simp)
    simp only [List.cons_append, skipWs, List.dropWhile_cons, hc, if_true]
    exact ih b (fun x hx => ha x (by simp [hx]))

theorem nlIndent_ws (lvl : Nat) : ∀ c ∈ nlIndent lvl, jsonIsSpace c = true := by
  intro c hc
  simp [nlIndent] at hc
  rcases hc with rfl | ⟨_, rfl⟩ <;> decide

theorem skipWs_cons_of_not (c : Char) (t : Chars) (h : jsonIsSpace c = false) :
    skipWs (c :: t) = c :: t := by
  simp [skipWs, List.dropWhile_cons, h]

theorem parseVal_skip_leading_ws (a s : Chars) (fuel : Nat)
    (ha : ∀ c ∈ a, jsonIsSpace c = true) :
    parseVal fuel (a ++ s) = parseVal fuel s := by
  cases fuel with
  | zero => rfl
  | succ f =>
    rw [parseVal.eq_def, parseVal.eq_def]
    simp only []
    rw [skipWs_append_of_ws a s ha]

theorem parseMember_skip_leading_ws (a s : Chars) (fuel : Nat)
    (ha : ∀ c ∈ a, jsonIsSpace c = true) :
    parseMember fuel (a ++ s) = parseMember fuel s := by
  cases fuel with
  | zero => rfl
  | succ f =>
    rw [parseMember.eq_def, parseMember.eq_def]
    simp only []
    rw [skipWs_append_of_ws a s ha]

theorem isDigitCh_facts (c : Char) (h : isDigitCh c = true) :
    jsonIsSpace c = false ∧ c ≠ '"' ∧ c ≠ '[' ∧ c ≠ '\x7b' ∧ c ≠ 'n' ∧ c ≠ 't' ∧
      c ≠ 'f' ∧ c ≠ ']' ∧ c ≠ '-' := by
  refine ⟨?_, ?_, ?_, ?_, ?_, ?_, ?_, ?_, ?_⟩
  · by_contra hw
    rw [Bool.not_eq_false] at hw
    simp [jsonIsSpace] at hw
    rcases hw with ((rfl | rfl) | rfl) | rfl <;> exact absurd h (by decide)
  all_goals (intro hc; rw [hc] at h; exact absurd h (by decide))

theorem dumpVal_jnull (lvl : Nat) : dumpVal lvl .jnull = "null".data := by
  rw [dumpVal.eq_def]

theorem dumpVal_jbool (lvl : Nat) (b : Bool) :
    dumpVal lvl (.jbool b) = if b then "true".data else "false".data := by
  rw [dumpVal.eq_def]

theorem dumpVal_jint (lvl : Nat) (n : Int) : dumpVal lvl (.jint n) = intChars n := by
  rw [dumpVal.eq_def]

theorem dumpVal_jstr (lvl : Nat) (s : Chars) : dumpVal lvl (.jstr s) = quoteChars s := by
  rw [dumpVal.eq_def]

theorem dumpVal_arr_nil (lvl : Nat) : dumpVal lvl (.jarr []) = "[]".data := by
  rw [dumpVal.eq_def]

theorem dumpVal_arr_cons (lvl : Nat) (x : JValue) (xs : List JValue) :
    dumpVal lvl (.jarr (x :: xs)) =
      '[' :: (nlIndent (lvl + 1) ++ dumpVal (lvl + 1) x ++ dumpArrTail (lvl + 1) xs
        ++ nlIndent lvl ++ [']']) := by
  rw [dumpVal.eq_def]

theorem dumpVal_obj_nil (lvl : Nat) : dumpVal lvl (.jobj []) = "\x7b\x7d".data := by
  rw [dumpVal.eq_def]

theorem dumpVal_obj_cons (lvl : Nat) (k : Chars) (v : JValue) (kvs : List (Chars × JValue)) :
    dumpVal lvl (.jobj ((k, v) :: kvs)) =
      '\x7b' :: (nlIndent (lvl + 1) ++ quoteChars k ++ ':' :: ' ' :: dumpVal (lvl + 1) v
        ++ dumpObjTail (lvl + 1) kvs ++ nlIndent lvl ++ ['\x7d']) := by
  rw [dumpVal.eq_def]

theorem dumpArrTail_nil (lvl : Nat) : dumpArrTail lvl [] = [] := by
  rw [dumpArrTail.eq_def]

theorem dumpArrTail_cons (lvl : Nat) (x : JValue) (xs : List JValue) :
    dumpArrTail lvl (x :: xs) = ',' :: (nlIndent lvl ++ dumpVal lvl x ++ dumpArrTail lvl xs) := by
  rw [dumpArrTail.eq_def]

theorem dumpObjTail_nil (lvl : Nat) : dumpObjTail lvl [] = [] := by
  rw [dumpObjTail.eq_def]

theorem dumpObjTail_cons (lvl : Nat) (k : Chars) (v : JValue) (kvs : List (Chars × JValue)) :
    dumpObjTail lvl ((k, v) :: kvs) =
      ',' :: (nlIndent lvl ++ quoteChars k ++ ':' :: ' ' :: dumpVal lvl v
        ++ dumpObjTail lvl kvs) := by
  rw [dumpObjTail.eq_def]

/-- Every printed value starts with a non-whitespace character that is not a
closing bracket. -/
theorem dump_head (lvl : Nat) (v : JValue) :
    ∃ c t, dumpVal lvl v = c :: t ∧ jsonIsSpace c = false ∧ c ≠ ']' := by
  cases v with
  | jnull => exact ⟨'n', "ull".data, by rw [dumpVal_jnull], by decide, by decide⟩
  | jbool b =>
    cases b
    · exact ⟨'f', "alse".data, by rw [dumpVal_jbool]; decide, by decide, by decide⟩
    · exact ⟨'t', "rue".data, by rw [dumpVal_jbool]; decide, by decide, by decide⟩
  | jint n =>
    rw [dumpVal_jint]
    by_cases hneg : n < 0
    · exact ⟨'-', natDigits n.natAbs, by simp [intChars, hneg], by decide, by decide⟩
    · rcases hq : natDigits n.natAbs with _ | ⟨c, t⟩
      · exact absurd hq (natDigits_ne_nil _)
      · have hc : isDigitCh c = true := natDigits_all_digit _ c (by rw [hq]; simp)
        have hf := isDigitCh_facts c hc
        exact ⟨c, t, by simp [intChars, hneg, hq], hf.1, hf.2.2.2.2.2.2.2.1⟩
  | jstr s => exact ⟨'"', escChars s ++ ['"'], by rw [dumpVal_jstr]; rfl, by decide, by decide⟩
  | jarr xs =>
    cases xs with
    | nil => exact ⟨'[', [']'], by rw [dumpVal_arr_nil], by decide, by decide⟩
    | cons x xs =>
      exact ⟨'[', _, by rw [dumpVal_arr_cons], by decide, by decide⟩
  | jobj kvs =>
    cases kvs with
    | nil => exact ⟨'\x7b', ['\x7d'], by rw [dumpVal_obj_nil], by decide, by decide⟩
    | cons kv kvs =>
      rcases kv with ⟨k, v⟩
      exact ⟨'\x7b', _, by rw [dumpVal_obj_cons], by decide, by decide⟩

theorem jfuel_pos (v : JValue) : 1 ≤ jfuel v := by
  rcases v with _ | b | n | s | (_ | ⟨x, xs⟩) | (_ | ⟨⟨k, w⟩, kvs⟩)
  all_goals rw [jfuel.eq_def]
  all_goals simp only []
  all_goals omega

theorem headNotDigit_arrTail (lvl lvl2 : Nat) (xs : List JValue) (rest : Chars) :
    headNotDigit (dumpArrTail lvl xs ++ (nlIndent lvl2 ++ ']' :: rest)) = true := by
  cases xs with
  | nil => rw [dumpArrTail_nil]; rfl
  | cons x xs => rw [dumpArrTail_cons]; rfl

theorem headNotDigit_objTail (lvl lvl2 : Nat) (kvs : List (Chars × JValue)) (rest : Chars) :
    headNotDigit (dumpObjTail lvl kvs ++ (nlIndent lvl2 ++ '\x7d' :: rest)) = true := by
  cases kvs with
  | nil => rw [dumpObjTail_nil]; rfl
  | cons kv kvs => rcases kv with ⟨k, v⟩; rw [dumpObjTail_cons]; rfl

theorem parseArrTail_dump (xs : List JValue) (IH : ∀ y ∈ xs, ParseDump y) :
    ∀ fuel lvl lvl2 rest, jfuelA xs ≤ fuel →
      parseArrTail fuel (dumpArrTail lvl xs ++ (nlIndent lvl2 ++ ']' :: rest))
        = some (xs, rest) := by
  induction xs with
  | nil =>
    intro fuel lvl lvl2 rest hfuel
    rw [jfuelA.eq_def] at hfuel
    simp only [] at hfuel
    rcases fuel with _ | f
    · omega
    · rw [dumpArrTail_nil, List.nil_append, parseArrTail.eq_def]
      simp only []
      rw [skipWs_append_of_ws _ _ (nlIndent_ws lvl2), skipWs_cons_of_not ']' rest (by decide)]
      simp

  | cons x xs ih =>
    intro fuel lvl lvl2 rest hfuel
    rw [jfuelA.eq_def] at hfuel
    simp only [] at hfuel
    rcases fuel with _ | f
    · omega
    · rw [dumpArrTail_cons]
      simp only [List.cons_append, List.append_assoc]
      rw [parseArrTail.eq_def]
      simp only []
      rw [skipWs_cons_of_not ',' _ (by decide)]
      simp only []
      rw [if_neg (by decide), if_pos (by trivial)]
      rw [parseVal_skip_leading_ws _ _ _ (nlIndent_ws lvl)]
      rw [IH x (by simp) f lvl (dumpArrTail lvl xs ++ (nlIndent lvl2 ++ ']' :: rest))
        (by omega) (headNotDigit_arrTail lvl lvl2 xs rest)]
      simp only []
      rw [ih (fun y hy => IH y (by simp [hy])) f lvl lvl2 rest (by omega)]
      rfl

theorem parseMember_dump (k : Chars) (v : JValue) (IHv : ParseDump v) :
    ∀ fuel lvl rest, 1 + jfuel v ≤ fuel → headNotDigit rest = true →
      parseMember fuel (quoteChars k ++ ':' :: ' ' :: (dumpVal lvl v ++ rest))
        = some ((k, v), rest) := by
  intro fuel lvl rest hfuel hrest
  rcases fuel with _ | f
  · omega
  · have hq : quoteChars k ++ ':' :: ' ' :: (dumpVal lvl v ++ rest)
        = '"' :: (escChars k ++ '"' :: (':' :: ' ' :: (dumpVal lvl v ++ rest))) := by
      simp [quoteChars]
    rw [parseMember.eq_def]
    simp only []
    rw [hq, skipWs_cons_of_not '"' _ (by decide)]
    simp only []
    rw [if_pos (by trivial), parseStr_escChars k (':' :: ' ' :: (dumpVal lvl v ++ rest))]
    simp only []
    rw [skipWs_cons_of_not ':' _ (by decide)]
    simp only []
    rw [show (' ' :: (dumpVal lvl v ++ rest)) = [' '] ++ (dumpVal lvl v ++ rest) from rfl]
    rw [parseVal_skip_leading_ws [' '] _ f (by intro c hc; simp at hc; subst hc; decide)]
    rw [IHv f lvl rest (by omega) hrest]
    rfl

theorem parseObjTail_dump (kvs : List (Chars × JValue)) (IH : ∀ kv ∈ kvs, ParseDump kv.2) :
    ∀ fuel lvl lvl2 rest, jfuelO kvs ≤ fuel →
      parseObjTail fuel (dumpObjTail lvl kvs ++ (nlIndent lvl2 ++ '\x7d' :: rest))
        = some (kvs, rest) := by
  induction kvs with
  | nil =>
    intro fuel lvl lvl2 rest hfuel
    rw [jfuelO.eq_def] at hfuel
    simp only [] at hfuel
    rcases fuel with _ | f
    · omega
    · rw [dumpObjTail_nil, List.nil_append, parseObjTail.eq_def]
      simp only []
      rw [skipWs_append_of_ws _ _ (nlIndent_ws lvl2),
        skipWs_cons_of_not '\x7d' rest (by decide)]
      simp
  | cons kv kvs ih =>
    rcases kv with ⟨k, v⟩
    intro fuel lvl lvl2 rest hfuel
    rw [jfuelO.eq_def] at hfuel
    simp only [] at hfuel
    rcases fuel with _ | f
    · omega
    · rw [dumpObjTail_cons]
      simp only [List.cons_append, List.append_assoc]
      rw [parseObjTail.eq_def]
      simp only []
      rw [skipWs_cons_of_not ',' _ (by decide)]
      simp only []
      rw [if_neg (by decide), if_pos (by trivial)]
      rw [parseMember_skip_leading_ws _ _ _ (nlIndent_ws lvl)]
      rw [parseMember_dump k v (IH (k, v) (by simp)) f lvl
        (dumpObjTail lvl kvs ++ (nlIndent lvl2 ++ '\x7d' :: rest)) (by omega)
        (headNotDigit_objTail lvl lvl2 kvs rest)]
      simp only []
      rw [ih (fun y hy => IH y (by simp [hy])) f lvl lvl2 rest (by omega)]
      rfl

theorem jvalue_sizeOf_pos (v : JValue) : 1 ≤ sizeOf v := by
  rcases v with _ | b | n | s | xs | kvs <;> simp

theorem parseDump_sized : ∀ n v, sizeOf v ≤ n → ParseDump v := by
  intro n
  induction n with
  | zero =>
    intro v hv
    have := jvalue_sizeOf_pos v
    omega
  | succ n ih =>
    intro v hv
    rcases v with _ | b | m | s | (_ | ⟨x, xs⟩) | (_ | ⟨⟨k, w⟩, kvs⟩)
    · -- null
      intro fuel lvl rest hfuel hrest
      rw [jfuel.eq_def] at hfuel
      simp only [] at hfuel
      rcases fuel with _ | f
      · omega
      · rw [dumpVal_jnull,
          show ("null".data ++ rest) = 'n' :: 'u' :: 'l' :: 'l' :: rest from rfl,
          parseVal.eq_def]
        simp [skipWs_cons_of_not 'n' _ (by decide)]
    · -- bool
      intro fuel lvl rest hfuel hrest
      rw [jfuel.eq_def] at hfuel
      simp only [] at hfuel
      rcases fuel with _ | f
      · omega
      · cases b
        · rw [dumpVal_jbool,
            show ((if false = true then "true".data else "false".data) ++ rest)
              = 'f' :: 'a' :: 'l' :: 's' :: 'e' :: rest from rfl,
            parseVal.eq_def]
          simp [skipWs_cons_of_not 'f' _ (by decide)]
        · rw [dumpVal_jbool,
            show ((if true = true then "true".data else "false".data) ++ rest)
              = 't' :: 'r' :: 'u' :: 'e' :: rest from rfl,
            parseVal.eq_def]
          simp [skipWs_cons_of_not 't' _ (by decide)]
    · -- int
      intro fuel lvl rest hfuel hrest
      rw [jfuel.eq_def] at hfuel
      simp only [] at hfuel
      rcases fuel with _ | f
      · omega
      · rw [dumpVal_jint]
        by_cases hneg : m < 0
        · rw [show intChars m = '-' :: natDigits m.natAbs from by simp [intChars, hneg],
            List.cons_append, parseVal.eq_def]
          simp only []
          rw [skipWs_cons_of_not '-' _ (by decide)]
          simp only []
          rw [if_neg (by decide), if_neg (by decide), if_neg (by decide),
            if_neg (by decide), if_neg (by decide), if_neg (by decide)]
          rw [show ('-' :: (natDigits m.natAbs ++ rest)) = intChars m ++ rest from by
            simp [intChars, hneg]]
          exact parseNum_intChars m rest hrest
        · rcases hq : natDigits m.natAbs with _ | ⟨c, t⟩
          · exact absurd hq (natDigits_ne_nil _)
          · have hc : isDigitCh c = true := natDigits_all_digit _ c (by rw [hq]; simp)
            have hf := isDigitCh_facts c hc
            rw [show intChars m = c :: t from by simp [intChars, hneg, hq],
              List.cons_append, parseVal.eq_def]
            simp only []
            rw [skipWs_cons_of_not c _ hf.1]
            simp only []
            rw [if_neg hf.2.1, if_neg hf.2.2.1, if_neg hf.2.2.2.1, if_neg hf.2.2.2.2.1,
              if_neg hf.2.2.2.2.2.1, if_neg hf.2.2.2.2.2.2.1]
            rw [show (c :: (t ++ rest)) = intChars m ++ rest from by
              simp [intChars, hneg, hq]]
            exact parseNum_intChars m rest hrest
    · -- str
      intro fuel lvl rest hfuel hrest
      rw [jfuel.eq_def] at hfuel
      simp only [] at hfuel
      rcases fuel with _ | f
      · omega
      · rw [dumpVal_jstr,
          show (quoteChars s ++ rest) = '"' :: (escChars s ++ '"' :: rest) from by
            simp [quoteChars],
          parseVal.eq_def]
        simp only []
        rw [skipWs_cons_of_not '"' _ (by decide)]
        simp only []
        rw [if_pos (by trivial), parseStr_escChars s rest]
        rfl
    · -- empty array
      intro fuel lvl rest hfuel hrest
      rw [jfuel.eq_def] at hfuel
      simp only [] at hfuel
      rcases fuel with _ | f
      · omega
      · rw [dumpVal_arr_nil,
          show ("[]".data ++ rest) = '[' :: ']' :: rest from rfl,
          parseVal.eq_def]
        simp [skipWs_cons_of_not '[' _ (by decide), skipWs_cons_of_not ']' _ (by decide)]
    · -- non-empty array
      have hsize : sizeOf x ≤ n ∧ sizeOf xs ≤ n := by
        simp at hv
        omega
      have IHx : ParseDump x := ih x hsize.1
      have IHelems : ∀ y ∈ xs, ParseDump y := by
        intro y hy
        have := List.sizeOf_lt_of_mem hy
        exact ih y (by omega)
      intro fuel lvl rest hfuel hrest
      rw [jfuel.eq_def] at hfuel
      simp only [] at hfuel
      rcases fuel with _ | f
      · omega
      · rw [dumpVal_arr_cons]
        simp only [List.cons_append, List.append_assoc, List.singleton_append, List.nil_append]
        rw [parseVal.eq_def]
        simp only []
        rw [skipWs_cons_of_not '[' _ (by decide)]
        simp only []
        rw [if_neg (by decide), if_pos (by trivial)]
        rw [skipWs_append_of_ws _ _ (nlIndent_ws (lvl + 1))]
        obtain ⟨c, t, hct, hws, hne⟩ := dump_head (lvl + 1) x
        rw [hct, List.cons_append, skipWs_cons_of_not c _ hws]
        simp only []
        rw [if_neg hne, ← List.cons_append, ← hct]
        rw [IHx f (lvl + 1) (dumpArrTail (lvl + 1) xs ++ (nlIndent lvl ++ ']' :: rest))
          (by omega) (headNotDigit_arrTail (lvl + 1) lvl xs rest)]
        simp only []
        rw [parseArrTail_dump xs IHelems f (lvl + 1) lvl rest (by omega)]
        rfl
    · -- empty object
      intro fuel lvl rest hfuel hrest
      rw [jfuel.eq_def] at hfuel
      simp only [] at hfuel
      rcases fuel with _ | f
      · omega
      · rw [dumpVal_obj_nil,
          show ("\x7b\x7d".data ++ rest) = '\x7b' :: '\x7d' :: rest from rfl,
          parseVal.eq_def]
        simp [skipWs_cons_of_not '\x7b' _ (by decide),
          skipWs_cons_of_not '\x7d' _ (by decide)]
    · -- non-empty object
      have hsize : sizeOf w ≤ n ∧ sizeOf kvs ≤ n := by
        simp at hv
        omega
      have IHw : ParseDump w := ih w hsize.1
      have IHmems : ∀ kv ∈ kvs, ParseDump kv.2 := by
        intro kv hkv
        have h1 := List.sizeOf_lt_of_mem hkv
        rcases kv with ⟨k2, v2⟩
        simp at h1
        exact ih v2 (by omega)
      intro fuel lvl rest hfuel hrest
      rw [jfuel.eq_def] at hfuel
      simp only [] at hfuel
      rcases fuel with _ | f
      · omega
      · rw [dumpVal_obj_cons]
        simp only [List.cons_append, List.append_assoc, List.singleton_append, List.nil_append]
        rw [parseVal.eq_def]
        simp only []
        rw [skipWs_cons_of_not '\x7b' _ (by decide)]
        simp only []
        rw [if_neg (by decide), if_neg (by decide), if_pos (by trivial)]
        rw [skipWs_append_of_ws _ _ (nlIndent_ws (lvl + 1))]
        have hq : quoteChars k ++ ':' :: ' ' :: (dumpVal (lvl + 1) w
              ++ (dumpObjTail (lvl + 1) kvs ++ (nlIndent lvl ++ '\x7d' :: rest)))
            = '"' :: (escChars k ++ '"' :: (':' :: ' ' :: (dumpVal (lvl + 1) w
              ++ (dumpObjTail (lvl + 1) kvs ++ (nlIndent lvl ++ '\x7d' :: rest))))) := by
          simp [quoteChars]
        rw [hq, skipWs_cons_of_not '"' _ (by decide)]
        simp only []
        rw [if_neg (by decide), ← hq]
        rw [parseMember_dump k w IHw f (lvl + 1)
          (dumpObjTail (lvl + 1) kvs ++ (nlIndent lvl ++ '\x7d' :: rest)) (by omega)
          (headNotDigit_objTail (lvl + 1) lvl kvs rest)]
        simp only []
        rw [parseObjTail_dump kvs IHmems f (lvl + 1) lvl rest (by omega)]
        rfl

theorem parseDump_all (v : JValue) : ParseDump v :=
  parseDump_sized (sizeOf v) v le_rfl

theorem nlIndent_length (lvl : Nat) : (nlIndent lvl).length = 1 + 4 * lvl := by
  simp [nlIndent]
  omega

theorem quoteChars_length (s : Chars) : (quoteChars s).length = (escChars s).length + 2 := by
  simp [quoteChars]

theorem intChars_length_pos (n : Int) : 1 ≤ (intChars n).length := by
  rcases hq : natDigits n.natAbs with _ | ⟨c, t⟩
  · exact absurd hq (natDigits_ne_nil _)
  · by_cases hneg : n < 0 <;> simp [intChars, hneg, hq]

theorem jfuelA_le (xs : List JValue)
    (IH : ∀ y ∈ xs, ∀ lvl, jfuel y ≤ (dumpVal lvl y).length) :
    ∀ lvl, jfuelA xs ≤ (dumpArrTail lvl xs).length + 1 := by
  induction xs with
  | nil =>
    intro lvl
    rw [jfuelA.eq_def, dumpArrTail_nil]
    simp
  | cons x xs ih =>
    intro lvl
    rw [jfuelA.eq_def, dumpArrTail_cons]
    simp only []
    have h1 := IH x (by simp) lvl
    have h2 := ih (fun y hy => IH y (by simp [hy])) lvl
    simp only [List.length_cons, List.length_append, nlIndent_length]
    omega

theorem jfuelO_le (kvs : List (Chars × JValue))
    (IH : ∀ kv ∈ kvs, ∀ lvl, jfuel kv.2 ≤ (dumpVal lvl kv.2).length) :
    ∀ lvl, jfuelO kvs ≤ (dumpObjTail lvl kvs).length + 1 := by
  induction kvs with
  | nil =>
    intro lvl
    rw [jfuelO.eq_def, dumpObjTail_nil]
    simp
  | cons kv kvs ih =>
    rcases kv with ⟨k, v⟩
    intro lvl
    rw [jfuelO.eq_def, dumpObjTail_cons]
    simp only []
    have h1 := IH (k, v) (by simp) lvl
    have h2 := ih (fun y hy => IH y (by simp [hy])) lvl
    simp only at h1
    simp only [List.length_cons, List.length_append, nlIndent_length]
    omega

theorem jfuel_le_sized : ∀ n v, sizeOf v ≤ n → ∀ lvl, jfuel v ≤ (dumpVal lvl v).length := by
  intro n
  induction n with
  | zero =>
    intro v hv
    have := jvalue_sizeOf_pos v
    omega
  | succ n ih =>
    intro v hv lvl
    rcases v with _ | b | m | s | (_ | ⟨x, xs⟩) | (_ | ⟨⟨k, w⟩, kvs⟩)
    · rw [jfuel.eq_def, dumpVal_jnull]
      simp
    · rw [jfuel.eq_def, dumpVal_jbool]
      cases b <;> simp
    · rw [jfuel.eq_def, dumpVal_jint]
      simp only []
      exact intChars_length_pos m
    · rw [jfuel.eq_def, dumpVal_jstr, quoteChars_length]
      simp
    · rw [jfuel.eq_def, dumpVal_arr_nil]
      simp
    · have hsize : sizeOf x ≤ n ∧ sizeOf xs ≤ n := by
        simp at hv
        omega
      have h1 := ih x hsize.1 (lvl + 1)
      have h2 := jfuelA_le xs
        (fun y hy lvl2 => ih y (by have := List.sizeOf_lt_of_mem hy; omega) lvl2) (lvl + 1)
      rw [jfuel.eq_def, dumpVal_arr_cons]
      simp only [List.length_cons, List.length_append, nlIndent_length]
      omega
    · rw [jfuel.eq_def, dumpVal_obj_nil]
      simp
    · have hsize : sizeOf w ≤ n ∧ sizeOf kvs ≤ n := by
        simp at hv
        omega
      have h1 := ih w hsize.1 (lvl + 1)
      have h2 := jfuelO_le kvs
        (fun kv hkv lvl2 => by
          rcases kv with ⟨k2, v2⟩
          have h3 := List.sizeOf_lt_of_mem hkv
          simp at h3 ⊢
          exact ih v2 (by omega) lvl2) (lvl + 1)
      rw [jfuel.eq_def, dumpVal_obj_cons]
      simp only [List.length_cons, List.length_append, nlIndent_length]
      omega

/-- The round-trip law: parsing the indented JSON text that `json.dump`
writes recovers exactly the dumped value. -/
theorem json_loads_json_dumps (v : JValue) : json_loads (json_dumps v) = some v := by
  have hfuel : jfuel v ≤ (dumpVal 0 v).length + 1 := by
    have := jfuel_le_sized (sizeOf v) v le_rfl 0
    omega
  have hP := parseDump_all v ((dumpVal 0 v).length + 1) 0 [] hfuel rfl
  rw [List.append_nil] at hP
  unfold json_loads json_dumps
  rw [hP]
  rfl

/-! Association-list facts for the filesystem model. -/
theorem lookupEntry_setEntry_self (p v : Chars) :
    ∀ l, lookupEntry p (setEntry p v l) = some v := by
  intro l
  induction l with
  | nil => simp [setEntry, lookupEntry]
  | cons e rest ih =>
    rcases e with ⟨q, w⟩
    by_cases h : q = p
    · subst h
      simp [setEntry, lookupEntry]
    · simp [setEntry, lookupEntry, h, ih]

theorem lookupEntry_setEntry_other (p q v : Chars) (hqp : q ≠ p) :
    ∀ l, lookupEntry q (setEntry p v l) = lookupEntry q l := by
  intro l
  induction l with
  | nil => simp [setEntry, lookupEntry, Ne.symm hqp]
  | cons e rest ih =>
    rcases e with ⟨r, w⟩
    by_cases h : r = p
    · subst h
      simp [setEntry, lookupEntry, hqp, Ne.symm hqp]
    · simp [setEntry, lookupEntry, h, ih]

theorem length_setEntry_of_not_mem (p v : Chars) :
    ∀ l, p ∉ l.map Prod.fst → (setEntry p v l).length = l.length + 1 := by
  intro l
  induction l with
  | nil => intro _; simp [setEntry]
  | cons e rest ih =>
    rcases e with ⟨q, w⟩
    intro h
    rw [List.map_cons] at h
    simp only [List.mem_cons, not_or] at h
    simp [setEntry, show ¬ q = p from fun hh => h.1 hh.symm, ih h.2]

/-! Timestamp format facts. -/
theorem digitsVal_replicate_zero : ∀ m (ds : Chars),
    digitsVal (List.replicate m '0' ++ ds) = digitsVal ds := by
  intro m
  induction m with
  | zero => intro ds; simp
  | succ m ih =>
    intro ds
    rw [List.replicate_succ, List.cons_append]
    show List.foldl _ ((0 * 10) + digitVal '0') _ = _
    rw [show (0 * 10) + digitVal '0' = 0 from by decide]
    exact ih ds

theorem digitsVal_padNum (w n : Nat) : digitsVal (padNum w n) = n := by
  rw [padNum, digitsVal_replicate_zero, digitsVal_natDigits]

theorem natDigits_length_le : ∀ k n, n < 10 ^ k → 1 ≤ k → (natDigits n).length ≤ k := by
  intro k
  induction k with
  | zero => intro n _ h; omega
  | succ k ih =>
    intro n hn _
    by_cases h : n < 10
    · rw [natDigits_lt n h]
      simp only [List.length_cons, List.length_nil]
      omega
    · rw [natDigits_ge n h]
      have hdiv : n / 10 < 10 ^ k := by
        rw [pow_succ] at hn
        omega
      have hk : 1 ≤ k := by
        by_contra hk0
        have : k = 0 := by omega
        subst this
        simp at hdiv
        omega
      have := ih (n / 10) hdiv hk
      simp only [List.length_append, List.length_cons, List.length_nil]
      omega

theorem padNum_length (w n : Nat) (h : (natDigits n).length ≤ w) :
    (padNum w n).length = w := by
  simp [padNum]
  omega

theorem padNum_all_digit (w n : Nat) : ∀ c ∈ padNum w n, isDigitCh c = true := by
  intro c hc
  simp [padNum] at hc
  rcases hc with ⟨_, rfl⟩ | hc
  · decide
  · exact natDigits_all_digit n c hc

theorem padNum_inj (w n m : Nat) (h : padNum w n = padNum w m) : n = m := by
  have h1 := digitsVal_padNum w n
  have h2 := digitsVal_padNum w m
  rw [h] at h1
  omega

/-! Base64 facts. -/
theorem b64Val_b64Char : ∀ m, m < 64 → b64Val (b64Char m) = some m := by decide

theorem b64Char_ne_pad : ∀ m, m < 64 → b64Char m ≠ '=' := by decide

theorem b64decode_b64encode :
    ∀ bs : List Nat, (∀ x ∈ bs, x < 256) → b64decode (b64encode bs) = some bs := by
  have main : ∀ n (bs : List Nat), bs.length ≤ n → (∀ x ∈ bs, x < 256) →
      b64decode (b64encode bs) = some bs := by
    intro n
    induction n with
    | zero =>
      intro bs hlen _
      have : bs = [] := List.eq_nil_of_length_eq_zero (by omega)
      subst this
      rfl
    | succ n ih =>
      intro bs hlen hbound
      rcases bs with _ | ⟨a, _ | ⟨b, _ | ⟨c, rest⟩⟩⟩
      · rfl
      · have ha : a < 256 := hbound a (by simp)
        have hv1 : b64Val (b64Char (a / 4)) = some (a / 4) := b64Val_b64Char _ (by omega)
        have hv2 : b64Val (b64Char (a % 4 * 16)) = some (a % 4 * 16) :=
          b64Val_b64Char _ (by omega)
        rw [show b64encode [a] = [b64Char (a / 4), b64Char (a % 4 * 16), '=', '='] from by
          rw [b64encode.eq_def]]
        rw [b64decode.eq_def]
        simp only []
        rw [if_pos (by simp), hv1, hv2]
        simp only []
        have : a / 4 * 4 + a % 4 * 16 / 16 = a := by omega
        rw [this]
      · have ha : a < 256 := hbound a (by simp)
        have hb : b < 256 := hbound b (by simp)
        have hv1 : b64Val (b64Char (a / 4)) = some (a / 4) := b64Val_b64Char _ (by omega)
        have hv2 : b64Val (b64Char (a % 4 * 16 + b / 16)) = some (a % 4 * 16 + b / 16) :=
          b64Val_b64Char _ (by omega)
        have hv3 : b64Val (b64Char (b % 16 * 4)) = some (b % 16 * 4) :=
          b64Val_b64Char _ (by omega)
        rw [show b64encode [a, b] = [b64Char (a / 4), b64Char (a % 4 * 16 + b / 16),
            b64Char (b % 16 * 4), '='] from by rw [b64encode.eq_def]]
        rw [b64decode.eq_def]
        simp only []
        rw [if_neg (by
          rintro ⟨h3, _, _⟩
          exact b64Char_ne_pad (b % 16 * 4) (by omega) h3)]
        rw [if_pos (by simp), hv1, hv2, hv3]
        simp only []
        have e1 : a / 4 * 4 + (a % 4 * 16 + b / 16) / 16 = a := by omega
        have e2 : (a % 4 * 16 + b / 16) % 16 * 16 + b % 16 * 4 / 4 = b := by omega
        rw [e1, e2]
      · have ha : a < 256 := hbound a (by simp)
        have hb : b < 256 := hbound b (by simp)
        have hc : c < 256 := hbound c (by simp)
        have hv1 : b64Val (b64Char (a / 4)) = some (a / 4) := b64Val_b64Char _ (by omega)
        have hv2 : b64Val (b64Char (a % 4 * 16 + b / 16)) = some (a % 4 * 16 + b / 16) :=
          b64Val_b64Char _ (by omega)
        have hv3 : b64Val (b64Char (b % 16 * 4 + c / 64)) = some (b % 16 * 4 + c / 64) :=
          b64Val_b64Char _ (by omega)
        have hv4 : b64Val (b64Char (c % 64)) = some (c % 64) := b64Val_b64Char _ (by omega)
        rw [show b64encode (a :: b :: c :: rest) = b64Char (a / 4) ::
            b64Char (a % 4 * 16 + b / 16) :: b64Char (b % 16 * 4 + c / 64) ::
            b64Char (c % 64) :: b64encode rest from by rw [b64encode.eq_def]]
        rw [b64decode.eq_def]
        simp only []
        rw [if_neg (by
          rintro ⟨h3, _, _⟩
          exact b64Char_ne_pad (b % 16 * 4 + c / 64) (by omega) h3)]
        rw [if_neg (by
          rintro ⟨h4, _⟩
          exact b64Char_ne_pad (c % 64) (by omega) h4)]
        rw [hv1, hv2, hv3, hv4]
        simp only []
        rw [ih rest (by simp at hlen; omega) (fun x hx => hbound x (by simp [hx]))]
        simp only [Option.map_some']
        have e1 : a / 4 * 4 + (a % 4 * 16 + b / 16) / 16 = a := by omega
        have e2 : (a % 4 * 16 + b / 16) % 16 * 16 + (b % 16 * 4 + c / 64) / 4 = b := by omega
        have e3 : (b % 16 * 4 + c / 64) % 4 * 64 + c % 64 = c := by omega
        rw [e1, e2, e3]
  intro bs
  exact main bs.length bs le_rfl

theorem zeitstempel_eq (t : LocalTime) :
    zeitstempel t = (padNum 4 t.year ++ padNum 2 t.month ++ padNum 2 t.day) ++ '_' ::
      (padNum 2 t.hour ++ padNum 2 t.minute ++ padNum 2 t.second) := rfl

theorem padNum4_length (n : Nat) (h : n ≤ 9999) : (padNum 4 n).length = 4 :=
  padNum_length 4 n (natDigits_length_le 4 n (by omega) (by omega))

theorem padNum2_length (n : Nat) (h : n ≤ 99) : (padNum 2 n).length = 2 :=
  padNum_length 2 n (natDigits_length_le 2 n (by omega) (by omega))

/-- The strftime output has the shape `YYYYMMDD_HHMMSS`: eight digits, an
underscore, six digits. -/
theorem zeitstempel_shape (t : LocalTime) (h : validTime t) :
    ∃ ds1 ds2, zeitstempel t = ds1 ++ '_' :: ds2 ∧ ds1.length = 8 ∧ ds2.length = 6
      ∧ (∀ c ∈ ds1, isDigitCh c = true) ∧ (∀ c ∈ ds2, isDigitCh c = true) := by
  obtain ⟨hy1, hy2, hmo1, hmo2, hd1, hd2, hh, hmi, hs⟩ := h
  refine ⟨padNum 4 t.year ++ padNum 2 t.month ++ padNum 2 t.day,
    padNum 2 t.hour ++ padNum 2 t.minute ++ padNum 2 t.second,
    zeitstempel_eq t, ?_, ?_, ?_, ?_⟩
  · simp only [List.length_append, padNum4_length t.year (by omega),
      padNum2_length t.month (by omega), padNum2_length t.day (by omega)]
  · simp only [List.length_append, padNum2_length t.hour (by omega),
      padNum2_length t.minute (by omega), padNum2_length t.second (by omega)]
  · intro c hc
    simp only [List.mem_append] at hc
    rcases hc with (hc | hc) | hc <;> exact padNum_all_digit _ _ c hc
  · intro c hc
    simp only [List.mem_append] at hc
    rcases hc with (hc | hc) | hc <;> exact padNum_all_digit _ _ c hc

/-- Two valid clock readings are formatted identically only when they agree
to the second: the format is injective. -/
theorem zeitstempel_inj (t1 t2 : LocalTime) (h1 : validTime t1) (h2 : validTime t2)
    (heq : zeitstempel t1 = zeitstempel t2) : t1 = t2 := by
  obtain ⟨hy1, hy2, hmo1, hmo2, hd1, hd2, hh, hmi, hs⟩ := h1
  obtain ⟨gy1, gy2, gmo1, gmo2, gd1, gd2, gh, gmi, gs⟩ := h2
  rw [zeitstempel_eq, zeitstempel_eq] at heq
  have hlenA : (padNum 4 t1.year ++ padNum 2 t1.month ++ padNum 2 t1.day).length
      = (padNum 4 t2.year ++ padNum 2 t2.month ++ padNum 2 t2.day).length := by
    simp only [List.length_append, padNum4_length t1.year (by omega),
      padNum4_length t2.year (by omega), padNum2_length t1.month (by omega),
      padNum2_length t2.month (by omega), padNum2_length t1.day (by omega),
      padNum2_length t2.day (by omega)]
  obtain ⟨hA, hR⟩ := List.append_inj heq hlenA
  have hB : padNum 2 t1.hour ++ padNum 2 t1.minute ++ padNum 2 t1.second
      = padNum 2 t2.hour ++ padNum 2 t2.minute ++ padNum 2 t2.second := by
    simpa using hR
  have hlenYMo : (padNum 4 t1.year ++ padNum 2 t1.month).length
      = (padNum 4 t2.year ++ padNum 2 t2.month).length := by
    simp only [List.length_append, padNum4_length t1.year (by omega),
      padNum4_length t2.year (by omega), padNum2_length t1.month (by omega),
      padNum2_length t2.month (by omega)]
  obtain ⟨hYMo, hDay⟩ := List.append_inj hA hlenYMo
  obtain ⟨hY, hMo⟩ := List.append_inj hYMo
    (by rw [padNum4_length t1.year (by omega), padNum4_length t2.year (by omega)])
  have hlenHMi : (padNum 2 t1.hour ++ padNum 2 t1.minute).length
      = (padNum 2 t2.hour ++ padNum 2 t2.minute).length := by
    simp only [List.length_append, padNum2_length t1.hour (by omega),
      padNum2_length t2.hour (by omega), padNum2_length t1.minute (by omega),
      padNum2_length t2.minute (by omega)]
  obtain ⟨hHMi, hSec⟩ := List.append_inj hB hlenHMi
  obtain ⟨hH, hMi⟩ := List.append_inj hHMi
    (by rw [padNum2_length t1.hour (by omega), padNum2_length t2.hour (by omega)])
  have e1 := padNum_inj _ _ _ hY
  have e2 := padNum_inj _ _ _ hMo
  have e3 := padNum_inj _ _ _ hDay
  have e4 := padNum_inj _ _ _ hH
  have e5 := padNum_inj _ _ _ hMi
  have e6 := padNum_inj _ _ _ hSec
  rcases t1 with ⟨y1, mo1, d1, hh1, mi1, s1⟩
  rcases t2 with ⟨y2, mo2, d2, hh2, mi2, s2⟩
  simp only at e1 e2 e3 e4 e5 e6
  simp [e1, e2, e3, e4, e5, e6]

theorem mkdirExistOk_files (d : Chars) (fs : FS) : (mkdirExistOk d fs).files = fs.files := by
  unfold mkdirExistOk
  split <;> rfl

/-! The claims. -/
/-- C1 counterexample: the cleaning step of `analysiere_whiteboard` does not
leave interior characters unchanged.  On the reply
`{"summary":"a```b"}` — which has no leading or trailing fence at all, so
edge-only cleaning returns it unchanged — the code's cleaning deletes the
interior backticks, so the two disagree. -/
theorem claim_clean_edges_only_counterexample :
    spec_clean_edges ("\x7b\"summary\":\"a```b\"\x7d".data)
        = "\x7b\"summary\":\"a```b\"\x7d".data
    ∧ bereinige ("\x7b\"summary\":\"a```b\"\x7d".data)
        ≠ spec_clean_edges ("\x7b\"summary\":\"a```b\"\x7d".data) := by
  have h1 : bereinige ("\x7b\"summary\":\"a```b\"\x7d".data)
      = "\x7b\"summary\":\"ab\"\x7d".data := by
    simp +decide [bereinige, removeAll, pyStrip, pyIsSpace]
  have h2 : spec_clean_edges ("\x7b\"summary\":\"a```b\"\x7d".data)
      = "\x7b\"summary\":\"a```b\"\x7d".data := by
    simp +decide [spec_clean_edges, pyStrip, pyIsSpace]
  refine ⟨h2, ?_⟩
  rw [h1, h2]
  decide

/-- C1 (amended): the cleaning step deletes every occurrence of "```json"
anywhere in the reply, then every remaining occurrence of "```", then strips
surrounding whitespace.  `deleteOccs` is the specification-level wording
(delete the leftmost occurrence and repeat); the code's scanning
`str.replace` provably agrees with it. -/
theorem claim_clean_deletes_all_fences (s : Chars) :
    bereinige s
      = pyStrip (deleteOccs '`' "``".data (deleteOccs '`' "``json".data s)) := by
  unfold bereinige
  rw [removeAll_eq_deleteOccs, removeAll_eq_deleteOccs]

/-- C2: when the cleaned model reply is not valid JSON, the request fails
with a parse error (`none`), the filesystem is unchanged (no Export File is
created), and the Result Persister is never invoked. -/
theorem claim_parse_failure_no_write (now : LocalTime) (contents : List Nat) (reply : Chars)
    (fs : FS) (hfail : json_loads (bereinige reply) = none) :
    verarbeite_whiteboard now contents reply fs = (none, fs, [Step.encoder, Step.analysis])
    ∧ Step.persister ∉ (verarbeite_whiteboard now contents reply fs).2.2 := by
  have h : verarbeite_whiteboard now contents reply fs
      = (none, fs, [Step.encoder, Step.analysis]) := by
    simp only [verarbeite_whiteboard, analysiere_whiteboard, hfail]
  exact ⟨h, by
    rw [h]
    exact (by decide : Step.persister ∉ [Step.encoder, Step.analysis])⟩

/-- C2 witness: the reply `"Sorry, I cannot process this."` is not valid
JSON, and the pipeline on it returns the failure, leaves the (empty)
filesystem unchanged, and never reaches the persister. -/
theorem claim_parse_failure_no_write_witness :
    json_loads (bereinige ("Sorry, I cannot process this.".data)) = none
    ∧ verarbeite_whiteboard ⟨2024, 1, 2, 3, 4, 5⟩ [72]
        ("Sorry, I cannot process this.".data) ⟨[], []⟩
      = (none, ⟨[], []⟩, [Step.encoder, Step.analysis]) := by
  have hb : bereinige ("Sorry, I cannot process this.".data)
      = "Sorry, I cannot process this.".data := by
    simp +decide [bereinige, removeAll, pyStrip, pyIsSpace]
  have hfail : json_loads (bereinige ("Sorry, I cannot process this.".data)) = none := by
    rw [hb]
    rfl
  exact ⟨hfail, (claim_parse_failure_no_write ⟨2024, 1, 2, 3, 4, 5⟩ [72] _ ⟨[], []⟩ hfail).1⟩

/-- C3: on the exactly-fenced reply the Analysis Client returns the mapping
`{"topic": "X", "sections": [], "flashcards": [], "summary": "Y"}`, and on
the unfenced reply it returns the parsed object unchanged. -/
theorem claim_fenced_and_unfenced_replies (b64 : Chars) :
    (analysiere_whiteboard b64
        ("```json\n\x7b\"topic\":\"X\",\"sections\":[],\"flashcards\":[],\"summary\":\"Y\"\x7d\n```".data)).2
      = some (JValue.jobj [("topic".data, JValue.jstr "X".data),
          ("sections".data, JValue.jarr []),
          ("flashcards".data, JValue.jarr []),
          ("summary".data, JValue.jstr "Y".data)])
    ∧ (analysiere_whiteboard b64
        ("\x7b\"topic\":\"A\",\"sections\":[],\"flashcards\":[],\"summary\":\"B\"\x7d".data)).2
      = some (JValue.jobj [("topic".data, JValue.jstr "A".data),
          ("sections".data, JValue.jarr []),
          ("flashcards".data, JValue.jarr []),
          ("summary".data, JValue.jstr "B".data)]) := by
  constructor
  · show json_loads (bereinige _) = _
    have h : bereinige
        ("```json\n\x7b\"topic\":\"X\",\"sections\":[],\"flashcards\":[],\"summary\":\"Y\"\x7d\n```".data)
        = "\x7b\"topic\":\"X\",\"sections\":[],\"flashcards\":[],\"summary\":\"Y\"\x7d".data := by
      simp +decide [bereinige, removeAll, pyStrip, pyIsSpace]
    rw [h]
    rfl
  · show json_loads (bereinige _) = _
    have h : bereinige
        ("\x7b\"topic\":\"A\",\"sections\":[],\"flashcards\":[],\"summary\":\"B\"\x7d".data)
        = "\x7b\"topic\":\"A\",\"sections\":[],\"flashcards\":[],\"summary\":\"B\"\x7d".data := by
      simp +decide [bereinige, removeAll, pyStrip, pyIsSpace]
    rw [h]
    rfl

/-- C4: `json_speichern` writes a file at the returned path (the path exists
immediately after the call), and parsing that file's contents back as JSON
yields exactly the input value — the serialize/parse round trip, including
non-ASCII characters, which the escaper leaves verbatim. -/
theorem claim_persist_roundtrip (now : LocalTime) (daten : JValue) (fs : FS) :
    (fsRead (json_speichern now daten fs).2 (json_speichern now daten fs).1).isSome = true
    ∧ (fsRead (json_speichern now daten fs).2 (json_speichern now daten fs).1).bind json_loads
      = some daten := by
  have hread : fsRead (json_speichern now daten fs).2 (json_speichern now daten fs).1
      = some (json_dumps daten) := by
    show lookupEntry _ (setEntry _ (json_dumps daten) (mkdirExistOk _ fs).files) = _
    exact lookupEntry_setEntry_self _ _ _
  rw [hread]
  simp [json_loads_json_dumps daten]

/-- C6: every `json_speichern` call ensures `whiteboard_exports` exists
(creating it only when absent), writes exactly the file
`whiteboard_exports/lecture_notes_<timestamp>.json` where `<timestamp>` is
the Timestamp Formatter's output, adds exactly one new file when the path is
fresh, and neither mutates nor deletes any other file. -/
theorem claim_persist_frame (now : LocalTime) (daten : JValue) (fs : FS) :
    (json_speichern now daten fs).1
      = "whiteboard_exports/lecture_notes_".data ++ zeitstempel now ++ ".json".data
    ∧ "whiteboard_exports".data ∈ (json_speichern now daten fs).2.dirs
    ∧ ("whiteboard_exports".data ∈ fs.dirs → (json_speichern now daten fs).2.dirs = fs.dirs)
    ∧ (∀ q, q ≠ (json_speichern now daten fs).1 →
        fsRead (json_speichern now daten fs).2 q = fsRead fs q)
    ∧ ((json_speichern now daten fs).1 ∉ fs.files.map Prod.fst →
        (json_speichern now daten fs).2.files.length = fs.files.length + 1) := by
  refine ⟨?_, ?_, ?_, ?_, ?_⟩
  · show "whiteboard_exports".data ++ '/' ::
        ("lecture_notes_".data ++ zeitstempel now ++ ".json".data) = _
    rw [show ("whiteboard_exports/lecture_notes_".data : Chars)
        = "whiteboard_exports".data ++ '/' :: "lecture_notes_".data from rfl]
    simp [List.append_assoc]
  · show "whiteboard_exports".data ∈ (mkdirExistOk "whiteboard_exports".data fs).dirs
    unfold mkdirExistOk
    split
    · assumption
    · simp
  · intro hmem
    show (mkdirExistOk "whiteboard_exports".data fs).dirs = fs.dirs
    unfold mkdirExistOk
    rw [if_pos hmem]
  · intro q hq
    show lookupEntry q (setEntry _ (json_dumps daten) (mkdirExistOk _ fs).files)
        = lookupEntry q fs.files
    rw [lookupEntry_setEntry_other ("whiteboard_exports".data ++ '/' ::
        ("lecture_notes_".data ++ zeitstempel now ++ ".json".data)) q (json_dumps daten) hq,
      mkdirExistOk_files]
  · intro hfresh
    show (setEntry _ (json_dumps daten) (mkdirExistOk _ fs).files).length
        = fs.files.length + 1
    rw [mkdirExistOk_files]
    exact length_setEntry_of_not_mem _ _ fs.files hfresh

/-- C6 witness: a concrete call on the empty filesystem at a fixed clock
reading satisfies all frame conjuncts. -/
theorem claim_persist_frame_witness :
    (json_speichern ⟨2024, 1, 2, 3, 4, 5⟩ (JValue.jobj []) ⟨[], []⟩).1
      = "whiteboard_exports/lecture_notes_".data ++ zeitstempel ⟨2024, 1, 2, 3, 4, 5⟩
        ++ ".json".data
    ∧ "whiteboard_exports".data ∈ (json_speichern ⟨2024, 1, 2, 3, 4, 5⟩
        (JValue.jobj []) ⟨[], []⟩).2.dirs
    ∧ ("whiteboard_exports".data ∈ FS.dirs ⟨[], []⟩ →
        (json_speichern ⟨2024, 1, 2, 3, 4, 5⟩ (JValue.jobj []) ⟨[], []⟩).2.dirs
          = FS.dirs ⟨[], []⟩)
    ∧ (∀ q, q ≠ (json_speichern ⟨2024, 1, 2, 3, 4, 5⟩ (JValue.jobj []) ⟨[], []⟩).1 →
        fsRead (json_speichern ⟨2024, 1, 2, 3, 4, 5⟩ (JValue.jobj []) ⟨[], []⟩).2 q
          = fsRead ⟨[], []⟩ q)
    ∧ ((json_speichern ⟨2024, 1, 2, 3, 4, 5⟩ (JValue.jobj []) ⟨[], []⟩).1
          ∉ (FS.files ⟨[], []⟩).map Prod.fst →
        (json_speichern ⟨2024, 1, 2, 3, 4, 5⟩ (JValue.jobj []) ⟨[], []⟩).2.files.length
          = (FS.files ⟨[], []⟩).length + 1) :=
  claim_persist_frame ⟨2024, 1, 2, 3, 4, 5⟩ (JValue.jobj []) ⟨[], []⟩

/-- C5: decoding the base64 text produced by `bild_als_base64` recovers the
file's bytes exactly (the encode/decode round trip), for every byte list. -/
theorem claim_encoder_roundtrip (contents : List Nat) (h : ∀ x ∈ contents, x < 256) :
    b64decode (bild_als_base64 contents) = some contents :=
  b64decode_b64encode contents h

/-- C5 witness: the three-byte file `[72, 105, 33]` (`"Hi!"`) round-trips. -/
theorem claim_encoder_roundtrip_witness :
    (∀ x ∈ ([72, 105, 33] : List Nat), x < 256)
    ∧ b64decode (bild_als_base64 [72, 105, 33]) = some [72, 105, 33] :=
  ⟨by decide, claim_encoder_roundtrip [72, 105, 33] (by decide)⟩

/-- C7: for valid clock readings, `zeitstempel` has the shape
`YYYYMMDD_HHMMSS` (eight digits, an underscore, six digits), and two calls
produce the same string exactly when their readings agree to the second —
so calls more than one second apart (different truncated readings) differ,
while calls within the same second (equal truncated readings) collide. -/
theorem claim_timestamp_format (t1 t2 : LocalTime) (h1 : validTime t1) (h2 : validTime t2) :
    (∃ ds1 ds2, zeitstempel t1 = ds1 ++ '_' :: ds2 ∧ ds1.length = 8 ∧ ds2.length = 6
      ∧ (∀ c ∈ ds1, isDigitCh c = true) ∧ (∀ c ∈ ds2, isDigitCh c = true))
    ∧ (zeitstempel t1 = zeitstempel t2 ↔ t1 = t2) :=
  ⟨zeitstempel_shape t1 h1,
    ⟨zeitstempel_inj t1 t2 h1 h2, fun h => by rw [h]⟩⟩

/-- C7 witness: two valid readings one second apart. -/
theorem claim_timestamp_format_witness :
    validTime ⟨2024, 1, 2, 3, 4, 5⟩ ∧ validTime ⟨2024, 1, 2, 3, 4, 6⟩
    ∧ ((∃ ds1 ds2, zeitstempel ⟨2024, 1, 2, 3, 4, 5⟩ = ds1 ++ '_' :: ds2 ∧ ds1.length = 8
        ∧ ds2.length = 6 ∧ (∀ c ∈ ds1, isDigitCh c = true) ∧ (∀ c ∈ ds2, isDigitCh c = true))
      ∧ (zeitstempel ⟨2024, 1, 2, 3, 4, 5⟩ = zeitstempel ⟨2024, 1, 2, 3, 4, 6⟩
          ↔ (⟨2024, 1, 2, 3, 4, 5⟩ : LocalTime) = ⟨2024, 1, 2, 3, 4, 6⟩)) :=
  ⟨by simp [validTime], by simp [validTime],
    claim_timestamp_format ⟨2024, 1, 2, 3, 4, 5⟩ ⟨2024, 1, 2, 3, 4, 6⟩
      (by simp [validTime]) (by simp [validTime])⟩

/-- C8: for every base64 payload, the request `analysiere_whiteboard`
constructs carries a maximum output-token budget of exactly 3000 and declares
`image/jpeg` as the media type of its (single) image block, regardless of the
actual image format. -/
theorem claim_request_budget_and_media_type (b64 reply : Chars) :
    ((analysiere_whiteboard b64 reply).1).max_tokens = 3000
    ∧ imageMediaTypes (analysiere_whiteboard b64 reply).1 = ["image/jpeg".data] := by
  exact ⟨rfl, rfl⟩

/-- C9: on a reply whose cleaned text parses as JSON, the pipeline invokes
the Encoder, the Analysis Client, and the Result Persister in that order,
and returns the parsed Analysis Result paired with a status string that
embeds the export path returned by the Result Persister. -/
theorem claim_pipeline_order_and_status (now : LocalTime) (contents : List Nat)
    (reply : Chars) (fs : FS) (j : JValue)
    (hok : json_loads (bereinige reply) = some j) :
    verarbeite_whiteboard now contents reply fs
      = (some (j, "Gespeichert unter: ".data ++ (json_speichern now j fs).1),
         (json_speichern now j fs).2,
         [Step.encoder, Step.analysis, Step.persister]) := by
  simp only [verarbeite_whiteboard, analysiere_whiteboard, hok]

/-- C9 witness: the reply `"{}"` parses, and the pipeline on it returns the
empty object, the status string with the export path, and the full
three-step trace. -/
theorem claim_pipeline_order_and_status_witness :
    json_loads (bereinige ("\x7b\x7d".data)) = some (JValue.jobj [])
    ∧ verarbeite_whiteboard ⟨2024, 1, 2, 3, 4, 5⟩ [72] ("\x7b\x7d".data) ⟨[], []⟩
      = (some (JValue.jobj [], "Gespeichert unter: ".data
          ++ (json_speichern ⟨2024, 1, 2, 3, 4, 5⟩ (JValue.jobj []) ⟨[], []⟩).1),
         (json_speichern ⟨2024, 1, 2, 3, 4, 5⟩ (JValue.jobj []) ⟨[], []⟩).2,
         [Step.encoder, Step.analysis, Step.persister]) := by
  have hb : bereinige ("\x7b\x7d".data) = "\x7b\x7d".data := by
    simp +decide [bereinige, removeAll, pyStrip, pyIsSpace]
  have hok : json_loads (bereinige ("\x7b\x7d".data)) = some (JValue.jobj []) := by
    rw [hb]
    rfl
  exact ⟨hok, claim_pipeline_order_and_status ⟨2024, 1, 2, 3, 4, 5⟩ [72] _ ⟨[], []⟩
    (JValue.jobj []) hok⟩

/-- C10: the cleaning step deletes triple-backtick sequences anywhere in the
reply, not only at its edges: on `{"summary":"use ``` here"}` the interior
fence occurs in the reply, is gone after cleaning, and the parsed structure's
string content therefore differs from the one in the reply. -/
theorem claim_interior_fences_deleted :
    occursIn "```".data ("\x7b\"summary\":\"use ``` here\"\x7d".data) = true
    ∧ occursIn "```".data (bereinige ("\x7b\"summary\":\"use ``` here\"\x7d".data)) = false
    ∧ json_loads (bereinige ("\x7b\"summary\":\"use ``` here\"\x7d".data))
      = some (JValue.jobj [("summary".data, JValue.jstr "use  here".data)])
    ∧ ("use  here".data : Chars) ≠ "use ``` here".data := by
  have hb : bereinige ("\x7b\"summary\":\"use ``` here\"\x7d".data)
      = "\x7b\"summary\":\"use  here\"\x7d".data := by
    simp +decide [bereinige, removeAll, pyStrip, pyIsSpace]
  refine ⟨by decide, ?_, ?_, by decide⟩
  · rw [hb]
    decide
  · rw [hb]
    rfl

end Whiteboard
